import Mathlib

/-!
Verification of the sprite-sheet → GIF frame-extraction and compositing
pipeline (`sprite_motion`).

The development shallowly embeds the pipeline's pure computations:
* the frame sequencer (`tempCoords` / `validFrameCoordinates` in
  `generateGif`, and `getValidFrameIndices` in `PreviewPlayer`),
* the geometry resolver (crop / logical / output dimensions, the
  `maxResolution1024` resize ratio),
* the chroma-key engine (global per-pixel keying, and the edge-seeded
  flood fill `applyFloodFill` / `processTransparency`),
* the bounding-box analyzer `getContentBoundingBox`,
* the per-frame compositor decisions of `generateGif` (which draw call is
  issued for each sequenced frame, and which frames reach the sink).

JavaScript numbers are modelled by `ℚ` (all arithmetic the pipeline does on
them here is exact in ℚ), `Math.floor` by `Int.floor`, pixel channel values
by `ℤ`, and the RGBA byte array by a function `ℕ → Pixel` indexed by the
pixel index `vIdx` (the source addresses the byte array at `idx = vIdx*4`).
Canvas drawing itself is outside the model: the analysis pre-pass result of
`generateGif` (one optional bounding box per frame, read off canvas pixels)
is therefore passed to the embedded `generateGif` as an explicit argument.
-/

namespace SpriteMotion

/-- An RGB color triple (components are 0–255 bytes; `ℤ` so that the
channel differences written by the source stay literal). -/
structure RGB where
  r : ℤ
  g : ℤ
  b : ℤ
deriving DecidableEq

/-- One RGBA pixel of a bitmap (`data[idx] .. data[idx+3]` in the source). -/
structure Pixel where
  r : ℤ
  g : ℤ
  b : ℤ
  a : ℤ
deriving DecidableEq

/-- Squared Euclidean RGB distance
`(r-tr)*(r-tr) + (g-tg)*(g-tg) + (b-tb)*(b-tb)` used by every
color test in the pipeline. -/
def distSq (p : Pixel) (t : RGB) : ℤ :=
  (p.r - t.r) * (p.r - t.r) + (p.g - t.g) * (p.g - t.g) + (p.b - t.b) * (p.b - t.b)

/-- `readOrder` configuration value. -/
inductive ReadOrder where
  | rowMajor
  | columnMajor
deriving DecidableEq

/-- `alignMode` configuration value. -/
inductive AlignMode where
  | center
  | bottom
deriving DecidableEq

/-! ## Frame Sequencer (`generateGif`, lines 276–302) -/

/-- One entry of the `tempCoords` array of `generateGif`: a grid cell
`(r, c)` together with the frame index assigned to it by the traversal. -/
structure Coord3 where
  r : ℕ
  c : ℕ
  index : ℕ
deriving DecidableEq

/-- The `tempCoords` array of `generateGif`: all grid cells enumerated in
the configured read order.  Column-major iterates `c` outer / `r` inner and
assigns `index = c*rows + r`; row-major (the default branch) iterates `r`
outer / `c` inner and assigns `index = r*cols + c`. -/
def tempCoords (ro : ReadOrder) (rows cols : ℕ) : List Coord3 :=
  match ro with
  | .columnMajor =>
      (List.range cols).flatMap fun c =>
        (List.range rows).map fun r => ⟨r, c, c * rows + r⟩
  | .rowMajor =>
      (List.range rows).flatMap fun r =>
        (List.range cols).map fun c => ⟨r, c, r * cols + c⟩

/-- The filter applied to `tempCoords`:
`item.index < totalFrames && !excludedFrames.includes(item.index)`. -/
def keepIndex (totalFrames : ℕ) (excludedFrames : List ℕ) (i : ℕ) : Bool :=
  i < totalFrames && !excludedFrames.contains i

/-- The `validFrameCoordinates` array of `generateGif`: `tempCoords`
filtered to indices below `totalFrames` and not excluded. -/
def validFrameCoordinates (ro : ReadOrder) (rows cols totalFrames : ℕ)
    (excludedFrames : List ℕ) : List Coord3 :=
  (tempCoords ro rows cols).filter fun t => keepIndex totalFrames excludedFrames t.index

/-- The preview player's `getValidFrameIndices` (PreviewPlayer.tsx,
lines 128–148): same double loop, but pushing the bare index. -/
def getValidFrameIndices (ro : ReadOrder) (rows cols totalFrames : ℕ)
    (excludedFrames : List ℕ) : List ℕ :=
  match ro with
  | .columnMajor =>
      (List.range cols).flatMap fun c =>
        ((List.range rows).map fun r => c * rows + r).filter
          (keepIndex totalFrames excludedFrames)
  | .rowMajor =>
      (List.range rows).flatMap fun r =>
        ((List.range cols).map fun c => r * cols + c).filter
          (keepIndex totalFrames excludedFrames)

/-! Sequencer lemmas: under either read order the `index` fields of
`tempCoords` enumerate `0, 1, …, rows*cols - 1` in ascending order (the
two orders differ only in which *cell* carries which index). -/

lemma range_flatMap_mul (a b : ℕ) :
    ((List.range a).flatMap fun i => (List.range b).map fun j => i * b + j) =
      List.range (a * b) := by
  induction a with
  | zero => simp
  | succ n ih =>
      rw [List.range_succ, Nat.succ_mul, List.range_add, List.flatMap_append, ih]
      simp [List.flatMap]

lemma tempCoords_map_index (ro : ReadOrder) (rows cols : ℕ) :
    (tempCoords ro rows cols).map Coord3.index = List.range (rows * cols) := by
  cases ro with
  | rowMajor =>
      unfold tempCoords
      rw [List.map_flatMap]
      simpa [Function.comp] using range_flatMap_mul rows cols
  | columnMajor =>
      unfold tempCoords
      rw [List.map_flatMap, Nat.mul_comm rows cols]
      simpa [Function.comp] using range_flatMap_mul cols rows

lemma validFrameCoordinates_map_index (ro : ReadOrder) (rows cols T : ℕ)
    (ex : List ℕ) :
    (validFrameCoordinates ro rows cols T ex).map Coord3.index =
      (List.range (rows * cols)).filter (keepIndex T ex) := by
  unfold validFrameCoordinates
  rw [← tempCoords_map_index ro rows cols, List.filter_map]
  rfl

lemma getValidFrameIndices_eq (ro : ReadOrder) (rows cols T : ℕ) (ex : List ℕ) :
    getValidFrameIndices ro rows cols T ex =
      (List.range (rows * cols)).filter (keepIndex T ex) := by
  cases ro with
  | rowMajor =>
      unfold getValidFrameIndices
      rw [← range_flatMap_mul rows cols, List.filter_flatMap]
  | columnMajor =>
      unfold getValidFrameIndices
      rw [Nat.mul_comm rows cols, ← range_flatMap_mul cols rows, List.filter_flatMap]

/-! ## Frame counting (Claim C2 groundwork) -/

/-- Number of distinct excluded indices lying in `[0, totalFrames)`. -/
def excludedCount (excludedFrames : List ℕ) (totalFrames : ℕ) : ℕ :=
  (excludedFrames.toFinset.filter fun i => i < totalFrames).card

lemma filter_range_keepIndex (n T : ℕ) (ex : List ℕ) (hTn : T ≤ n) :
    (List.range n).filter (keepIndex T ex) = (List.range T).filter (keepIndex T ex) := by
  obtain ⟨k, rfl⟩ := Nat.exists_eq_add_of_le hTn
  rw [List.range_add, List.filter_append]
  have h2 : ((List.range k).map fun x => T + x).filter (keepIndex T ex) = [] := by
    rw [List.filter_eq_nil_iff]
    intro a ha
    simp only [List.mem_map, List.mem_range] at ha
    obtain ⟨x, _, rfl⟩ := ha
    simp [keepIndex]
  rw [h2, List.append_nil]

lemma length_filter_keepIndex (T : ℕ) (ex : List ℕ) :
    ((List.range T).filter (keepIndex T ex)).length = T - excludedCount ex T := by
  have hsplit :
      ((List.range T).filter (keepIndex T ex)).length +
        ((List.range T).filter fun i => !keepIndex T ex i).length = T := by
    have h : (List.range T).length =
        ((List.range T).filter (keepIndex T ex)).length +
          ((List.range T).filter fun i => !keepIndex T ex i).length :=
      List.length_eq_length_filter_add _
    simpa [List.length_range] using h.symm
  have hneg : ((List.range T).filter fun i => !keepIndex T ex i).length =
      excludedCount ex T := by
    have hcongr : ((List.range T).filter fun i => !keepIndex T ex i) =
        (List.range T).filter fun i => ex.contains i := by
      apply List.filter_congr
      intro i hi
      simp only [List.mem_range] at hi
      simp [keepIndex, hi]
    rw [hcongr]
    have hnd : ((List.range T).filter fun i => ex.contains i).Nodup :=
      (List.nodup_range T).filter _
    rw [← List.toFinset_card_of_nodup hnd]
    congr 1
    ext i
    simp only [List.mem_toFinset, List.mem_filter, List.mem_range,
      excludedCount, Finset.mem_filter]
    constructor
    · rintro ⟨hi, hc⟩
      exact ⟨by simpa using hc, hi⟩
    · rintro ⟨hc, hi⟩
      exact ⟨hi, by simpa using hc⟩
  omega

/-- Emitted frame count, for either read order: the sequencer's list has
exactly `totalFrames - |excludedFrames ∩ [0,totalFrames)|` entries. -/
lemma validFrameCoordinates_length (ro : ReadOrder) (rows cols T : ℕ)
    (ex : List ℕ) (hT : T ≤ rows * cols) :
    (validFrameCoordinates ro rows cols T ex).length = T - excludedCount ex T := by
  have h := congrArg List.length (validFrameCoordinates_map_index ro rows cols T ex)
  rw [List.length_map] at h
  rw [h, filter_range_keepIndex _ _ _ hT, length_filter_keepIndex]

/-! ## Claim C1 -/

/-- **C1, counterexample.**  The claim asserts that column-major traversal
of a 2-row, 3-column grid (no exclusions, `totalFrames = 6`) emits
`originalIndex` values in order `[0,3,1,4,2,5]`.  In the code, column-major
traversal assigns `index = c*rows + r` while iterating `c` outer / `r`
inner, so the emitted `originalIndex` values are `[0,1,2,3,4,5]`, not
`[0,3,1,4,2,5]`. -/
theorem C1_counterexample :
    (validFrameCoordinates .columnMajor 2 3 6 []).map Coord3.index = [0, 1, 2, 3, 4, 5] ∧
    (validFrameCoordinates .columnMajor 2 3 6 []).map Coord3.index ≠ [0, 3, 1, 4, 2, 5] := by
  constructor
  · rfl
  · decide

/-- **C1, amended.**  Row-major traversal of the 2×3 grid emits
`originalIndex` values `[0,1,2,3,4,5]`; column-major traversal *also*
emits `originalIndex` values `[0,1,2,3,4,5]` (each cell `(r,c)` carries
index `c*rows + r`, and the traversal visits cells in exactly that index
order) — the two orders differ in which cells are visited: column-major
visits cells `(0,0),(1,0),(0,1),(1,1),(0,2),(1,2)`, whose *row-major*
positions `r*cols + c` are `[0,3,1,4,2,5]`. -/
theorem C1_amended :
    (validFrameCoordinates .rowMajor 2 3 6 []).map Coord3.index = [0, 1, 2, 3, 4, 5] ∧
    (validFrameCoordinates .columnMajor 2 3 6 []).map Coord3.index = [0, 1, 2, 3, 4, 5] ∧
    (validFrameCoordinates .columnMajor 2 3 6 []).map (fun t => (t.r, t.c)) =
      [(0, 0), (1, 0), (0, 1), (1, 1), (0, 2), (1, 2)] ∧
    (validFrameCoordinates .columnMajor 2 3 6 []).map (fun t => t.r * 3 + t.c) =
      [0, 3, 1, 4, 2, 5] := by
  refine ⟨rfl, rfl, rfl, rfl⟩

/-! ## Claim C9 -/

/-- **C9.**  For every configuration, the sequencer's emitted list of
`originalIndex` values is strictly increasing, under both read orders
(each traversal visits cells in exactly the order of its own index
formula); and the preview player's `getValidFrameIndices` list is the very
same list, hence strictly increasing as well. -/
theorem C9_sequencer_indices_strictly_increasing (ro : ReadOrder)
    (rows cols T : ℕ) (ex : List ℕ) :
    ((validFrameCoordinates ro rows cols T ex).map Coord3.index).Pairwise (· < ·) ∧
    getValidFrameIndices ro rows cols T ex =
      (validFrameCoordinates ro rows cols T ex).map Coord3.index ∧
    (getValidFrameIndices ro rows cols T ex).Pairwise (· < ·) := by
  have hmap := validFrameCoordinates_map_index ro rows cols T ex
  have hsorted : ((validFrameCoordinates ro rows cols T ex).map Coord3.index).Pairwise (· < ·) := by
    rw [hmap]
    exact (List.pairwise_lt_range _).filter _
  refine ⟨hsorted, ?_, ?_⟩
  · rw [hmap, getValidFrameIndices_eq]
  · rw [getValidFrameIndices_eq]
    exact (List.pairwise_lt_range _).filter _

/-! ## Data model of `generateGif` -/

/-- Bounding box of frame content (source lines 87–94; coordinates are
pixel indices inside the cropped cell). -/
structure BoundingBox where
  minX : ℕ
  minY : ℕ
  maxX : ℕ
  maxY : ℕ
  width : ℕ
  height : ℕ
deriving DecidableEq

/-- Per-cell crop margins, in source pixels (may be fractional). -/
structure CropMargins where
  top : ℚ
  bottom : ℚ
  left : ℚ
  right : ℚ
deriving DecidableEq

/-- The source image's dimensions. -/
structure ImageDimensions where
  width : ℚ
  height : ℚ
deriving DecidableEq

/-- The render configuration consumed by `generateGif` (`SpriteConfig` in
types.ts; `transparent` holds the already-parsed `hexToRgb` result). -/
structure SpriteConfig where
  rows : ℕ
  cols : ℕ
  crop : CropMargins
  scale : ℚ
  fps : ℚ
  totalFrames : ℕ
  excludedFrames : List ℕ
  transparent : Option RGB
  tolerance : ℚ
  useFloodFill : Bool
  readOrder : ReadOrder
  autoAlign : Bool
  alignMode : AlignMode
  maxResolution1024 : Bool

/-- The two fatal rejections of `generateGif` modelled here. -/
inductive GifError where
  | invalidCrop
  | emptySequence
deriving DecidableEq

/-- One `drawImage(image, sx, sy, sw, sh, dx, dy, dw, dh)` call issued by
the render loop for a frame. -/
structure DrawCall where
  sx : ℚ
  sy : ℚ
  sw : ℚ
  sh : ℚ
  dx : ℚ
  dy : ℚ
  dw : ℚ
  dh : ℚ
deriving DecidableEq

/-- One frame submitted to the GIF sink: its grid cell, its original frame
index, and the draw call (if any) that put source content on its canvas. -/
structure FrameOut where
  r : ℕ
  c : ℕ
  originalIndex : ℕ
  draw : Option DrawCall
deriving DecidableEq

/-- The observable outcome of a successful `generateGif` run. -/
structure GifResult where
  ratio : ℚ
  outputWidth : ℤ
  outputHeight : ℤ
  logicalWidth : ℤ
  logicalHeight : ℤ
  frames : List FrameOut
deriving DecidableEq

/-- `cropWidth = dimensions.width / cols - crop.left - crop.right`
(source lines 260–264). -/
def cropWidthQ (cfg : SpriteConfig) (dims : ImageDimensions) : ℚ :=
  dims.width / (cfg.cols : ℚ) - cfg.crop.left - cfg.crop.right

/-- `cropHeight = dimensions.height / rows - crop.top - crop.bottom`
(source lines 261–265). -/
def cropHeightQ (cfg : SpriteConfig) (dims : ImageDimensions) : ℚ :=
  dims.height / (cfg.rows : ℚ) - cfg.crop.top - cfg.crop.bottom

/-- The final-adjustment step of the geometry resolver (source lines
377–388): given the logical canvas dimensions, produce
`(resizeRatio, outputWidth, outputHeight)`.  The ratio is
`1024 / max(logical)` when `maxResolution1024` is set and the larger
logical side exceeds 1024, else `1.0`; output dims are
`floor(logical * resizeRatio)`. -/
def computeOutput (maxResolution1024 : Bool) (logicalWidth logicalHeight : ℤ) :
    ℚ × ℤ × ℤ :=
  if maxResolution1024 then
    let maxSide := max logicalWidth logicalHeight
    if 1024 < maxSide then
      let ratio : ℚ := 1024 / (maxSide : ℚ)
      (ratio, ⌊(logicalWidth : ℚ) * ratio⌋, ⌊(logicalHeight : ℚ) * ratio⌋)
    else (1, logicalWidth, logicalHeight)
  else (1, logicalWidth, logicalHeight)

/-- The draw call the render loop issues for one sequenced frame (source
lines 448–491).  With auto-align on, a frame whose recorded bounding box
is `none` gets *no* draw call (the `if (bbox)` block is skipped and the
canvas keeps only its clear/background fill); with a box, the box region
is drawn scaled and centred (or bottom-anchored).  Without auto-align the
full cropped cell is drawn to fill the logical canvas. -/
def frameDraw (autoAlign : Bool) (alignMode : AlignMode) (scale : ℚ)
    (crop : CropMargins) (fwRaw fhRaw cropW cropH : ℚ) (lw lh : ℤ)
    (bb : ℕ → Option BoundingBox) (t : Coord3) : Option DrawCall :=
  if autoAlign then
    match bb t.index with
    | some box =>
        let scaledBboxW : ℤ := ⌊(box.width : ℚ) * scale⌋
        let scaledBboxH : ℤ := ⌊(box.height : ℚ) * scale⌋
        let destX : ℤ := ⌊((lw - scaledBboxW : ℤ) : ℚ) / 2⌋
        let destY : ℤ :=
          if alignMode = .bottom then lh - scaledBboxH
          else ⌊((lh - scaledBboxH : ℤ) : ℚ) / 2⌋
        some ⟨(t.c : ℚ) * fwRaw + crop.left + (box.minX : ℚ),
              (t.r : ℚ) * fhRaw + crop.top + (box.minY : ℚ),
              (box.width : ℚ), (box.height : ℚ),
              (destX : ℚ), (destY : ℚ), (scaledBboxW : ℚ), (scaledBboxH : ℚ)⟩
    | none => none
  else
    some ⟨(t.c : ℚ) * fwRaw + crop.left, (t.r : ℚ) * fhRaw + crop.top,
          cropW, cropH, 0, 0, (lw : ℚ), (lh : ℚ)⟩

/-- Shallow embedding of `generateGif`'s control flow and geometry (source
lines 244–535).  The canvas-pixel analysis of the auto-align pre-pass is
outside the pure model, so its per-frame result — the recorded
`frameBBoxes` map — is passed in as the oracle argument `bb`; everything
downstream of it (max-box sizing, logical/output dimensions, per-frame
draw calls, frame submission) is computed as in the source.  Fatal
rejections are returned as `Except.error`, in source order: the crop check
first, then the empty-sequence check; an error means no canvas was
allocated and no frame was submitted to the sink. -/
def generateGif (cfg : SpriteConfig) (dims : ImageDimensions)
    (bb : ℕ → Option BoundingBox) : Except GifError GifResult :=
  let frameWidthRaw := dims.width / (cfg.cols : ℚ)
  let frameHeightRaw := dims.height / (cfg.rows : ℚ)
  if cropWidthQ cfg dims ≤ 0 ∨ cropHeightQ cfg dims ≤ 0 then .error .invalidCrop
  else
    let valid := validFrameCoordinates cfg.readOrder cfg.rows cfg.cols
      cfg.totalFrames cfg.excludedFrames
    if valid.length = 0 then .error .emptySequence
    else
      -- auto-align pre-pass: fold the recorded boxes into (maxW, maxH)
      let mwh : ℕ × ℕ :=
        if cfg.autoAlign then
          valid.foldl (fun m t =>
            match bb t.index with
            | some box => (max m.1 box.width, max m.2 box.height)
            | none => m) (0, 0)
        else (0, 0)
      let final : ℚ × ℚ :=
        if 0 < mwh.1 ∧ 0 < mwh.2 then ((mwh.1 : ℚ) + 2, (mwh.2 : ℚ) + 2)
        else (cropWidthQ cfg dims, cropHeightQ cfg dims)
      let logicalWidth : ℤ := ⌊final.1 * cfg.scale⌋
      let logicalHeight : ℤ := ⌊final.2 * cfg.scale⌋
      let out := computeOutput cfg.maxResolution1024 logicalWidth logicalHeight
      .ok {
        ratio := out.1
        outputWidth := out.2.1
        outputHeight := out.2.2
        logicalWidth := logicalWidth
        logicalHeight := logicalHeight
        frames := valid.map fun t =>
          { r := t.r, c := t.c, originalIndex := t.index,
            draw := frameDraw cfg.autoAlign cfg.alignMode cfg.scale cfg.crop
              frameWidthRaw frameHeightRaw (cropWidthQ cfg dims) (cropHeightQ cfg dims)
              logicalWidth logicalHeight bb t } }

/-! ## Claim C5 -/

/-- **C5.**  With `maxResolution1024` enabled, a logical canvas of
2000×1000 yields `resizeRatio` 0.512 and output dimensions exactly
1024×512 (both dimensions `floor(logical * resizeRatio)`); a logical
canvas of 800×600 yields ratio 1.0 and unchanged dimensions.  In general
the ratio is `1024 / max(logical)` whenever the larger logical dimension
exceeds 1024, else 1.0. -/
theorem C5_maxResolution1024_resize :
    computeOutput true 2000 1000 = (0.512, 1024, 512) ∧
    computeOutput true 800 600 = (1, 800, 600) ∧
    ∀ lw lh : ℤ,
      (1024 < max lw lh →
        computeOutput true lw lh =
          (1024 / (max lw lh : ℚ),
           ⌊(lw : ℚ) * (1024 / (max lw lh : ℚ))⌋,
           ⌊(lh : ℚ) * (1024 / (max lw lh : ℚ))⌋)) ∧
      (max lw lh ≤ 1024 → computeOutput true lw lh = (1, lw, lh)) := by
  refine ⟨by norm_num [computeOutput], by norm_num [computeOutput],
    fun lw lh => ⟨fun h => ?_, fun h => ?_⟩⟩
  · unfold computeOutput
    rw [if_pos rfl]
    dsimp only
    rw [if_pos h]
    push_cast
    rfl
  · unfold computeOutput
    rw [if_pos rfl]
    dsimp only
    rw [if_neg (not_lt.mpr h)]

/-- Witness for C5: the general branch conditions hold and give the stated
values at 3000×500 (downscaled) and 700×300 (unchanged). -/
theorem C5_maxResolution1024_resize_witness :
    (1024 < max (3000 : ℤ) 500 ∧
      computeOutput true 3000 500 =
        (1024 / (max (3000 : ℤ) 500 : ℚ),
         ⌊((3000 : ℤ) : ℚ) * (1024 / (max (3000 : ℤ) 500 : ℚ))⌋,
         ⌊((500 : ℤ) : ℚ) * (1024 / (max (3000 : ℤ) 500 : ℚ))⌋)) ∧
    (max (700 : ℤ) 300 ≤ 1024 ∧ computeOutput true 700 300 = (1, 700, 300)) := by
  constructor
  · exact ⟨by decide, (C5_maxResolution1024_resize.2.2 3000 500).1 (by decide)⟩
  · exact ⟨by decide, (C5_maxResolution1024_resize.2.2 700 300).2 (by decide)⟩

/-! ## Claim C8 -/

/-- **C8.**  If the cropped cell width or height is ≤ 0, `generateGif`
rejects with the invalid-crop error; in this model an `Except.error`
result carries no frames, i.e. the failure happens before any drawing and
before any frame reaches the sink. -/
theorem C8_invalid_crop_rejected (cfg : SpriteConfig) (dims : ImageDimensions)
    (bb : ℕ → Option BoundingBox)
    (h : cropWidthQ cfg dims ≤ 0 ∨ cropHeightQ cfg dims ≤ 0) :
    generateGif cfg dims bb = .error .invalidCrop := by
  simp only [generateGif, if_pos h]

/-- Witness for C8: a 1×1 grid over a 4×4 image with a 10-pixel left crop
margin (cropped width 4 − 10 = −6 ≤ 0) is rejected. -/
theorem C8_invalid_crop_rejected_witness :
    (cropWidthQ
        { rows := 1, cols := 1, crop := ⟨0, 0, 10, 0⟩, scale := 1, fps := 10,
          totalFrames := 1, excludedFrames := [], transparent := Option.none,
          tolerance := 0, useFloodFill := true, readOrder := .rowMajor,
          autoAlign := false, alignMode := .center, maxResolution1024 := false }
        ⟨4, 4⟩ ≤ 0 ∨
      cropHeightQ
        { rows := 1, cols := 1, crop := ⟨0, 0, 10, 0⟩, scale := 1, fps := 10,
          totalFrames := 1, excludedFrames := [], transparent := Option.none,
          tolerance := 0, useFloodFill := true, readOrder := .rowMajor,
          autoAlign := false, alignMode := .center, maxResolution1024 := false }
        ⟨4, 4⟩ ≤ 0) ∧
    generateGif
        { rows := 1, cols := 1, crop := ⟨0, 0, 10, 0⟩, scale := 1, fps := 10,
          totalFrames := 1, excludedFrames := [], transparent := Option.none,
          tolerance := 0, useFloodFill := true, readOrder := .rowMajor,
          autoAlign := false, alignMode := .center, maxResolution1024 := false }
        ⟨4, 4⟩ (fun _ => Option.none) = .error .invalidCrop := by
  have h : cropWidthQ
      { rows := 1, cols := 1, crop := ⟨0, 0, 10, 0⟩, scale := 1, fps := 10,
        totalFrames := 1, excludedFrames := [], transparent := Option.none,
        tolerance := 0, useFloodFill := true, readOrder := .rowMajor,
        autoAlign := false, alignMode := .center, maxResolution1024 := false }
      (⟨4, 4⟩ : ImageDimensions) ≤ 0 := by
    norm_num [cropWidthQ]
  exact ⟨Or.inl h, C8_invalid_crop_rejected _ _ _ (Or.inl h)⟩

/-! ## Claim C2 -/

/-- **C2.**  For rows, cols > 0 and `1 ≤ totalFrames ≤ rows*cols`, the
sequencer emits exactly
`totalFrames − |excludedFrames ∩ [0,totalFrames)|` frames (distinct
excluded indices below `totalFrames`); on a successful run the sink
receives exactly that many frames; and if that number is 0 (and the crop
check, which runs first, passes) the pipeline rejects with the
empty-sequence error — in this model an error result, returned before the
canvas-allocation and render stages, with no frame submitted. -/
theorem C2_emitted_frame_count (cfg : SpriteConfig) (dims : ImageDimensions)
    (bb : ℕ → Option BoundingBox) (_hr : 0 < cfg.rows) (_hc : 0 < cfg.cols)
    (_h1 : 1 ≤ cfg.totalFrames) (h2 : cfg.totalFrames ≤ cfg.rows * cfg.cols) :
    (validFrameCoordinates cfg.readOrder cfg.rows cfg.cols cfg.totalFrames
        cfg.excludedFrames).length =
      cfg.totalFrames - excludedCount cfg.excludedFrames cfg.totalFrames ∧
    (∀ res, generateGif cfg dims bb = .ok res →
      res.frames.length =
        cfg.totalFrames - excludedCount cfg.excludedFrames cfg.totalFrames) ∧
    (cfg.totalFrames - excludedCount cfg.excludedFrames cfg.totalFrames = 0 →
      ¬(cropWidthQ cfg dims ≤ 0 ∨ cropHeightQ cfg dims ≤ 0) →
      generateGif cfg dims bb = .error .emptySequence) := by
  have hlen := validFrameCoordinates_length cfg.readOrder cfg.rows cfg.cols
    cfg.totalFrames cfg.excludedFrames h2
  refine ⟨hlen, ?_, ?_⟩
  · intro res hres
    simp only [generateGif] at hres
    by_cases hcrop : cropWidthQ cfg dims ≤ 0 ∨ cropHeightQ cfg dims ≤ 0
    · rw [if_pos hcrop] at hres
      exact absurd hres (by simp)
    · rw [if_neg hcrop] at hres
      by_cases hzero : (validFrameCoordinates cfg.readOrder cfg.rows cfg.cols
          cfg.totalFrames cfg.excludedFrames).length = 0
      · rw [if_pos hzero] at hres
        exact absurd hres (by simp)
      · rw [if_neg hzero, Except.ok.injEq] at hres
        rw [← hres]
        simpa using hlen
  · intro hN hcrop
    simp only [generateGif]
    rw [if_neg hcrop, if_pos (hlen.trans hN)]

/-- Witness for C2: a 2×2 grid, `totalFrames = 4`,
`excludedFrames = [2, 2, 7]` (one distinct exclusion below 4), emitting
4 − 1 = 3 frames. -/
theorem C2_emitted_frame_count_witness :
    (0 < 2 ∧ 0 < 2 ∧ 1 ≤ 4 ∧ 4 ≤ 2 * 2) ∧
    ((validFrameCoordinates .rowMajor 2 2 4 [2, 2, 7]).length =
        4 - excludedCount [2, 2, 7] 4 ∧
      (∀ res,
        generateGif
            { rows := 2, cols := 2, crop := ⟨0, 0, 0, 0⟩, scale := 1, fps := 10,
              totalFrames := 4, excludedFrames := [2, 2, 7],
              transparent := Option.none, tolerance := 0, useFloodFill := true,
              readOrder := .rowMajor, autoAlign := false, alignMode := .center,
              maxResolution1024 := false }
            ⟨4, 4⟩ (fun _ => Option.none) = .ok res →
          res.frames.length = 4 - excludedCount [2, 2, 7] 4) ∧
      (4 - excludedCount [2, 2, 7] 4 = 0 →
        ¬(cropWidthQ
              { rows := 2, cols := 2, crop := ⟨0, 0, 0, 0⟩, scale := 1, fps := 10,
                totalFrames := 4, excludedFrames := [2, 2, 7],
                transparent := Option.none, tolerance := 0, useFloodFill := true,
                readOrder := .rowMajor, autoAlign := false, alignMode := .center,
                maxResolution1024 := false }
              ⟨4, 4⟩ ≤ 0 ∨
            cropHeightQ
              { rows := 2, cols := 2, crop := ⟨0, 0, 0, 0⟩, scale := 1, fps := 10,
                totalFrames := 4, excludedFrames := [2, 2, 7],
                transparent := Option.none, tolerance := 0, useFloodFill := true,
                readOrder := .rowMajor, autoAlign := false, alignMode := .center,
                maxResolution1024 := false }
              ⟨4, 4⟩ ≤ 0) →
        generateGif
            { rows := 2, cols := 2, crop := ⟨0, 0, 0, 0⟩, scale := 1, fps := 10,
              totalFrames := 4, excludedFrames := [2, 2, 7],
              transparent := Option.none, tolerance := 0, useFloodFill := true,
              readOrder := .rowMajor, autoAlign := false, alignMode := .center,
              maxResolution1024 := false }
            ⟨4, 4⟩ (fun _ => Option.none) = .error .emptySequence)) :=
  ⟨by decide,
    C2_emitted_frame_count
      { rows := 2, cols := 2, crop := ⟨0, 0, 0, 0⟩, scale := 1, fps := 10,
        totalFrames := 4, excludedFrames := [2, 2, 7], transparent := Option.none,
        tolerance := 0, useFloodFill := true, readOrder := .rowMajor,
        autoAlign := false, alignMode := .center, maxResolution1024 := false }
      ⟨4, 4⟩ (fun _ => Option.none) (by decide) (by decide) (by decide) (by decide)⟩

/-! ## Claim C4 -/

/-- Auto-align test configuration: 1×1 grid, no crop, unit scale. -/
def cfgAuto : SpriteConfig :=
  { rows := 1, cols := 1, crop := ⟨0, 0, 0, 0⟩, scale := 1, fps := 10,
    totalFrames := 1, excludedFrames := [], transparent := Option.none,
    tolerance := 0, useFloodFill := true, readOrder := .rowMajor,
    autoAlign := true, alignMode := .center, maxResolution1024 := false }

/-- **C4, counterexample.**  The claim asserts that an auto-aligned frame
whose analyzer result is `none` is drawn with its full cropped cell
content, as in the no-align path.  On a 1×1 grid over a 4×4 image with the
analyzer returning `none`, the render succeeds and the frame is emitted,
but with *no* draw call at all (the `if (bbox)` block is skipped, leaving
a blank canvas), whereas the no-align path would issue the full-cell draw
`drawImage(image, 0, 0, 4, 4, 0, 0, 4, 4)`. -/
theorem C4_counterexample :
    (generateGif cfgAuto ⟨4, 4⟩ (fun _ => Option.none)).map
        (fun res => res.frames.map FrameOut.draw) = .ok [Option.none] ∧
    frameDraw false .center 1 ⟨0, 0, 0, 0⟩ 4 4 4 4 4 4 (fun _ => Option.none) ⟨0, 0, 0⟩ =
      some ⟨0, 0, 4, 4, 0, 0, 4, 4⟩ ∧
    (Option.none : Option DrawCall) ≠ some ⟨0, 0, 4, 4, 0, 0, 4, 4⟩ := by
  refine ⟨?_, ?_, by simp⟩
  · norm_num [generateGif, cfgAuto, cropWidthQ, cropHeightQ, validFrameCoordinates,
      tempCoords, keepIndex, frameDraw, computeOutput, Except.map]
    decide
  · norm_num [frameDraw]

/-- **C4, amended.**  When auto-align is enabled and the analyzer records
`none` (no content) for some sequenced frame, the render does not fail:
every sequenced frame is still emitted to the sink, and a frame with no
recorded bounding box receives *no* draw call — its canvas keeps only the
clear/background fill — instead of being drawn with its cropped cell
content; no error is raised for it. -/
theorem C4_missing_bbox_frame_still_emitted (cfg : SpriteConfig)
    (dims : ImageDimensions) (bb : ℕ → Option BoundingBox)
    (hAA : cfg.autoAlign = true)
    (hcrop : ¬(cropWidthQ cfg dims ≤ 0 ∨ cropHeightQ cfg dims ≤ 0))
    (hne : (validFrameCoordinates cfg.readOrder cfg.rows cfg.cols cfg.totalFrames
      cfg.excludedFrames).length ≠ 0) :
    ∃ res, generateGif cfg dims bb = .ok res ∧
      res.frames.length = (validFrameCoordinates cfg.readOrder cfg.rows cfg.cols
        cfg.totalFrames cfg.excludedFrames).length ∧
      ∀ f ∈ res.frames, bb f.originalIndex = Option.none → f.draw = Option.none := by
  simp only [generateGif]
  rw [if_neg hcrop, if_neg hne]
  refine ⟨_, rfl, by simp, ?_⟩
  intro f hf hbb
  simp only [List.mem_map] at hf
  obtain ⟨t, _, rfl⟩ := hf
  simp only at hbb
  simp [frameDraw, hAA, hbb]

/-- Witness for C4 amended: the 1×1 auto-align configuration with the
analyzer returning `none` for every frame. -/
theorem C4_missing_bbox_frame_still_emitted_witness :
    (cfgAuto.autoAlign = true ∧
      ¬(cropWidthQ cfgAuto ⟨4, 4⟩ ≤ 0 ∨ cropHeightQ cfgAuto ⟨4, 4⟩ ≤ 0) ∧
      (validFrameCoordinates cfgAuto.readOrder cfgAuto.rows cfgAuto.cols
        cfgAuto.totalFrames cfgAuto.excludedFrames).length ≠ 0) ∧
    (∃ res, generateGif cfgAuto ⟨4, 4⟩ (fun _ => Option.none) = .ok res ∧
      res.frames.length = (validFrameCoordinates cfgAuto.readOrder cfgAuto.rows
        cfgAuto.cols cfgAuto.totalFrames cfgAuto.excludedFrames).length ∧
      ∀ f ∈ res.frames, (fun _ => (Option.none : Option BoundingBox)) f.originalIndex =
        Option.none → f.draw = Option.none) := by
  have hcrop : ¬(cropWidthQ cfgAuto ⟨4, 4⟩ ≤ 0 ∨ cropHeightQ cfgAuto ⟨4, 4⟩ ≤ 0) := by
    norm_num [cropWidthQ, cropHeightQ, cfgAuto]
  refine ⟨⟨rfl, hcrop, by decide⟩, ?_⟩
  exact C4_missing_bbox_frame_still_emitted cfgAuto ⟨4, 4⟩ (fun _ => Option.none)
    rfl hcrop (by decide)

/-! ## Bounding-Box Analyzer (`getContentBoundingBox`, source lines 99–157) -/

/-- The analyzer's running state: `minX/minY/maxX/maxY` trackers and the
`found` flag (initialised to `width, height, 0, 0, false`). -/
structure BBoxScan where
  minX : ℕ
  minY : ℕ
  maxX : ℕ
  maxY : ℕ
  found : Bool
deriving DecidableEq

/-- The analyzer's per-pixel content test (source lines 124–135): a pixel
is content iff its alpha is non-zero AND (no target color is configured,
OR its squared distance to the target exceeds the threshold). -/
def isContent (transparentRGB : Option RGB) (thresholdSq : ℚ) (p : Pixel) : Bool :=
  if p.a = 0 then false
  else
    match transparentRGB with
    | some t => decide (thresholdSq < (distSq p t : ℚ))
    | none => true

/-- The scan order of the analyzer's double loop: `y` outer, `x` inner. -/
def scanPixels (width height : ℕ) : List (ℕ × ℕ) :=
  (List.range height).flatMap fun y => (List.range width).map fun x => (x, y)

/-- One iteration of the analyzer's loop body: on a content pixel, widen
the running min/max trackers and set `found`. -/
def bbStep (transparentRGB : Option RGB) (thresholdSq : ℚ) (data : ℕ → Pixel)
    (width : ℕ) (st : BBoxScan) (p : ℕ × ℕ) : BBoxScan :=
  if isContent transparentRGB thresholdSq (data (p.2 * width + p.1)) then
    { minX := min st.minX p.1, minY := min st.minY p.2,
      maxX := max st.maxX p.1, maxY := max st.maxY p.2, found := true }
  else st

/-- `getContentBoundingBox`: scan every pixel, track running min/max of
the content pixels' coordinates, return `none` when no content pixel was
found, else the tracked box with `width = maxX - minX + 1` and
`height = maxY - minY + 1`. -/
def getContentBoundingBox (data : ℕ → Pixel) (width height : ℕ)
    (transparentRGB : Option RGB) (thresholdSq : ℚ) : Option BoundingBox :=
  let st := (scanPixels width height).foldl
    (bbStep transparentRGB thresholdSq data width) ⟨width, height, 0, 0, false⟩
  if st.found then
    some ⟨st.minX, st.minY, st.maxX, st.maxY,
          st.maxX - st.minX + 1, st.maxY - st.minY + 1⟩
  else none

section BBoxInvariant

variable (t : Option RGB) (thSq : ℚ) (data : ℕ → Pixel) (w h : ℕ)

/-- `(x, y)` is a content pixel of the bitmap. -/
def ContentAt (x y : ℕ) : Prop := isContent t thSq (data (y * w + x)) = true

/-- Invariant of the analyzer's fold: `S` is the list of already-scanned
pixels. -/
def BBInv (S : List (ℕ × ℕ)) (st : BBoxScan) : Prop :=
  (st.found = false → st = ⟨w, h, 0, 0, false⟩ ∧
      ∀ p ∈ S, ¬ContentAt t thSq data w p.1 p.2) ∧
  (st.found = true →
      (∀ p ∈ S, ContentAt t thSq data w p.1 p.2 →
        st.minX ≤ p.1 ∧ p.1 ≤ st.maxX ∧ st.minY ≤ p.2 ∧ p.2 ≤ st.maxY) ∧
      (∃ p ∈ S, ContentAt t thSq data w p.1 p.2 ∧ p.1 = st.minX) ∧
      (∃ p ∈ S, ContentAt t thSq data w p.1 p.2 ∧ p.1 = st.maxX) ∧
      (∃ p ∈ S, ContentAt t thSq data w p.1 p.2 ∧ p.2 = st.minY) ∧
      (∃ p ∈ S, ContentAt t thSq data w p.1 p.2 ∧ p.2 = st.maxY))

lemma bbStep_inv (S : List (ℕ × ℕ)) (st : BBoxScan) (p : ℕ × ℕ)
    (hp : p.1 < w ∧ p.2 < h) (hinv : BBInv t thSq data w h S st) :
    BBInv t thSq data w h (S ++ [p]) (bbStep t thSq data w st p) := by
  by_cases hc : ContentAt t thSq data w p.1 p.2
  · have hstep : bbStep t thSq data w st p =
        { minX := min st.minX p.1, minY := min st.minY p.2,
          maxX := max st.maxX p.1, maxY := max st.maxY p.2, found := true } := by
      unfold bbStep
      rw [if_pos (show isContent t thSq (data (p.2 * w + p.1)) = true from hc)]
    rw [hstep]
    refine ⟨fun hfalse => by simp at hfalse, fun _ => ?_⟩
    cases hfound : st.found with
    | false =>
        obtain ⟨hinit, hnone⟩ := hinv.1 hfound
        subst hinit
        have hminX : min w p.1 = p.1 := min_eq_right hp.1.le
        have hminY : min h p.2 = p.2 := min_eq_right hp.2.le
        have hmaxX : max 0 p.1 = p.1 := max_eq_right (Nat.zero_le _)
        have hmaxY : max 0 p.2 = p.2 := max_eq_right (Nat.zero_le _)
        refine ⟨?_, ⟨p, by simp, hc, hminX.symm⟩, ⟨p, by simp, hc, hmaxX.symm⟩,
          ⟨p, by simp, hc, hminY.symm⟩, ⟨p, by simp, hc, hmaxY.symm⟩⟩
        intro q hq hqc
        rcases List.mem_append.mp hq with hq | hq
        · exact absurd hqc (hnone q hq)
        · simp only [List.mem_singleton] at hq
          subst hq
          simp [hminX, hminY, hmaxX, hmaxY]
    | true =>
        obtain ⟨hbd, hx1, hx2, hy1, hy2⟩ := hinv.2 hfound
        constructor
        · intro q hq hqc
          rcases List.mem_append.mp hq with hq | hq
          · obtain ⟨a1, a2, a3, a4⟩ := hbd q hq hqc
            exact ⟨le_trans (min_le_left _ _) a1, le_trans a2 (le_max_left _ _),
              le_trans (min_le_left _ _) a3, le_trans a4 (le_max_left _ _)⟩
          · simp only [List.mem_singleton] at hq
            subst hq
            exact ⟨min_le_right _ _, le_max_right _ _, min_le_right _ _,
              le_max_right _ _⟩
        refine ⟨?_, ?_, ?_, ?_⟩
        · rcases le_total st.minX p.1 with hle | hle
          · obtain ⟨q, hq, hqc, hqe⟩ := hx1
            exact ⟨q, List.mem_append_left _ hq, hqc, by simp [hqe, min_eq_left hle]⟩
          · exact ⟨p, List.mem_append_right _ (by simp), hc,
              by simp [min_eq_right hle]⟩
        · rcases le_total st.maxX p.1 with hle | hle
          · exact ⟨p, List.mem_append_right _ (by simp), hc,
              by simp [max_eq_right hle]⟩
          · obtain ⟨q, hq, hqc, hqe⟩ := hx2
            exact ⟨q, List.mem_append_left _ hq, hqc, by simp [hqe, max_eq_left hle]⟩
        · rcases le_total st.minY p.2 with hle | hle
          · obtain ⟨q, hq, hqc, hqe⟩ := hy1
            exact ⟨q, List.mem_append_left _ hq, hqc, by simp [hqe, min_eq_left hle]⟩
          · exact ⟨p, List.mem_append_right _ (by simp), hc,
              by simp [min_eq_right hle]⟩
        · rcases le_total st.maxY p.2 with hle | hle
          · exact ⟨p, List.mem_append_right _ (by simp), hc,
              by simp [max_eq_right hle]⟩
          · obtain ⟨q, hq, hqc, hqe⟩ := hy2
            exact ⟨q, List.mem_append_left _ hq, hqc, by simp [hqe, max_eq_left hle]⟩
  · have hstep : bbStep t thSq data w st p = st := by
      unfold bbStep
      rw [if_neg (show ¬isContent t thSq (data (p.2 * w + p.1)) = true from hc)]
    rw [hstep]
    constructor
    · intro hfound
      obtain ⟨hinit, hnone⟩ := hinv.1 hfound
      refine ⟨hinit, fun q hq => ?_⟩
      rcases List.mem_append.mp hq with hq | hq
      · exact hnone q hq
      · simp only [List.mem_singleton] at hq
        subst hq
        exact hc
    · intro hfound
      obtain ⟨hbd, hx1, hx2, hy1, hy2⟩ := hinv.2 hfound
      refine ⟨?_, ?_, ?_, ?_, ?_⟩
      · intro q hq hqc
        rcases List.mem_append.mp hq with hq | hq
        · exact hbd q hq hqc
        · simp only [List.mem_singleton] at hq
          subst hq
          exact absurd hqc hc
      · obtain ⟨q, hq, hrest⟩ := hx1
        exact ⟨q, List.mem_append_left _ hq, hrest⟩
      · obtain ⟨q, hq, hrest⟩ := hx2
        exact ⟨q, List.mem_append_left _ hq, hrest⟩
      · obtain ⟨q, hq, hrest⟩ := hy1
        exact ⟨q, List.mem_append_left _ hq, hrest⟩
      · obtain ⟨q, hq, hrest⟩ := hy2
        exact ⟨q, List.mem_append_left _ hq, hrest⟩

lemma bbFold_inv (l : List (ℕ × ℕ)) (S : List (ℕ × ℕ)) (st : BBoxScan)
    (hl : ∀ p ∈ l, p.1 < w ∧ p.2 < h) (hinv : BBInv t thSq data w h S st) :
    BBInv t thSq data w h (S ++ l) (l.foldl (bbStep t thSq data w) st) := by
  induction l generalizing S st with
  | nil => simpa using hinv
  | cons p l ih =>
      have hstep := bbStep_inv t thSq data w h S st p (hl p (List.mem_cons_self _ _)) hinv
      have := ih (S ++ [p]) (bbStep t thSq data w st p)
        (fun q hq => hl q (List.mem_cons_of_mem _ hq)) hstep
      rw [List.append_cons]
      exact this

lemma mem_scanPixels (p : ℕ × ℕ) :
    p ∈ scanPixels w h ↔ p.1 < w ∧ p.2 < h := by
  obtain ⟨x, y⟩ := p
  simp only [scanPixels, List.mem_flatMap, List.mem_map, List.mem_range, Prod.mk.injEq]
  constructor
  · rintro ⟨y', hy', x', hx', rfl, rfl⟩
    exact ⟨hx', hy'⟩
  · rintro ⟨hx, hy⟩
    exact ⟨y, hy, x, hx, rfl, rfl⟩

lemma scan_inv : BBInv t thSq data w h (scanPixels w h)
    ((scanPixels w h).foldl (bbStep t thSq data w) ⟨w, h, 0, 0, false⟩) := by
  have hinit : BBInv t thSq data w h [] ⟨w, h, 0, 0, false⟩ := by
    constructor
    · intro _
      exact ⟨rfl, by simp⟩
    · intro hfound
      simp at hfound
  have := bbFold_inv t thSq data w h (scanPixels w h) [] ⟨w, h, 0, 0, false⟩
    (fun p hp => (mem_scanPixels w h p).mp hp) hinit
  simpa using this

end BBoxInvariant

/-! ## Claim C6 -/

/-- **C6.**  The Bounding-Box Analyzer returns `none` exactly when every
pixel is background (alpha 0, or within tolerance of the configured
target); otherwise it returns the tightest rectangle enclosing all content
pixels: every content pixel lies inside the box, each of its four edges is
attained by some content pixel, and `width`/`height` are the corresponding
extents.  (Concrete instances — the all-background bitmap and the bitmap
with a single opaque pixel at (5,5) yielding a 1×1 box at (5,5) — are
checked in the witness.) -/
theorem C6_bounding_box_analyzer (data : ℕ → Pixel) (w h : ℕ)
    (t : Option RGB) (thSq : ℚ) :
    (getContentBoundingBox data w h t thSq = Option.none ↔
      ∀ x, x < w → ∀ y, y < h → isContent t thSq (data (y * w + x)) = false) ∧
    (∀ bb, getContentBoundingBox data w h t thSq = some bb →
      (∀ x, x < w → ∀ y, y < h → isContent t thSq (data (y * w + x)) = true →
        bb.minX ≤ x ∧ x ≤ bb.maxX ∧ bb.minY ≤ y ∧ y ≤ bb.maxY) ∧
      (∃ x y, x < w ∧ y < h ∧ isContent t thSq (data (y * w + x)) = true ∧
        x = bb.minX) ∧
      (∃ x y, x < w ∧ y < h ∧ isContent t thSq (data (y * w + x)) = true ∧
        x = bb.maxX) ∧
      (∃ x y, x < w ∧ y < h ∧ isContent t thSq (data (y * w + x)) = true ∧
        y = bb.minY) ∧
      (∃ x y, x < w ∧ y < h ∧ isContent t thSq (data (y * w + x)) = true ∧
        y = bb.maxY) ∧
      bb.width = bb.maxX - bb.minX + 1 ∧ bb.height = bb.maxY - bb.minY + 1) := by
  have hinv := scan_inv t thSq data w h
  set st := (scanPixels w h).foldl (bbStep t thSq data w) ⟨w, h, 0, 0, false⟩ with hst
  have hgc : getContentBoundingBox data w h t thSq =
      if st.found then
        some ⟨st.minX, st.minY, st.maxX, st.maxY,
          st.maxX - st.minX + 1, st.maxY - st.minY + 1⟩
      else none := rfl
  cases hfound : st.found with
  | false =>
      obtain ⟨_, hnone⟩ := hinv.1 hfound
      rw [hgc, if_neg (by simp [hfound])]
      constructor
      · simp only [true_iff]
        intro x hx y hy
        have hmem : ((x, y) : ℕ × ℕ) ∈ scanPixels w h :=
          (mem_scanPixels w h (x, y)).mpr ⟨hx, hy⟩
        have := hnone (x, y) hmem
        unfold ContentAt at this
        simpa using this
      · intro bb hbb
        exact absurd hbb (by simp)
  | true =>
      obtain ⟨hbd, hx1, hx2, hy1, hy2⟩ := hinv.2 hfound
      rw [hgc, if_pos (by simp [hfound])]
      constructor
      · constructor
        · intro habs
          exact absurd habs (by simp)
        · intro hall
          obtain ⟨p, hp, hpc, _⟩ := hx1
          obtain ⟨hpx, hpy⟩ := (mem_scanPixels w h p).mp hp
          have := hall p.1 hpx p.2 hpy
          unfold ContentAt at hpc
          rw [this] at hpc
          exact absurd hpc (by simp)
      · intro bb hbb
        rw [Option.some.injEq] at hbb
        subst hbb
        refine ⟨?_, ?_, ?_, ?_, ?_, rfl, rfl⟩
        · intro x hx y hy hc
          exact hbd (x, y) ((mem_scanPixels w h (x, y)).mpr ⟨hx, hy⟩) hc
        · obtain ⟨p, hp, hpc, hpe⟩ := hx1
          obtain ⟨hpx, hpy⟩ := (mem_scanPixels w h p).mp hp
          exact ⟨p.1, p.2, hpx, hpy, hpc, hpe⟩
        · obtain ⟨p, hp, hpc, hpe⟩ := hx2
          obtain ⟨hpx, hpy⟩ := (mem_scanPixels w h p).mp hp
          exact ⟨p.1, p.2, hpx, hpy, hpc, hpe⟩
        · obtain ⟨p, hp, hpc, hpe⟩ := hy1
          obtain ⟨hpx, hpy⟩ := (mem_scanPixels w h p).mp hp
          exact ⟨p.1, p.2, hpx, hpy, hpc, hpe⟩
        · obtain ⟨p, hp, hpc, hpe⟩ := hy2
          obtain ⟨hpx, hpy⟩ := (mem_scanPixels w h p).mp hp
          exact ⟨p.1, p.2, hpx, hpy, hpc, hpe⟩

/-- An 8×8 test bitmap whose only content pixel is a fully-opaque pixel at
`(5, 5)` (every other pixel has alpha 0). -/
def singlePixelData : ℕ → Pixel :=
  fun v => if v = 5 * 8 + 5 then ⟨10, 20, 30, 255⟩ else ⟨0, 0, 0, 0⟩

/-- Witness for C6: the analyzer returns a 1×1 box at (5,5) for
`singlePixelData`, returns `none` for an all-transparent 8×8 bitmap (via
the theorem's iff), and the tightness bounds hold at the concrete box. -/
theorem C6_bounding_box_analyzer_witness :
    getContentBoundingBox singlePixelData 8 8 Option.none 0 =
      some ⟨5, 5, 5, 5, 1, 1⟩ ∧
    getContentBoundingBox (fun _ => ⟨0, 0, 0, 0⟩) 8 8 Option.none 0 = Option.none ∧
    (∀ x, x < 8 → ∀ y, y < 8 →
      isContent Option.none 0 (singlePixelData (y * 8 + x)) = true →
      5 ≤ x ∧ x ≤ 5 ∧ 5 ≤ y ∧ y ≤ 5) := by
  refine ⟨by decide, ?_, ?_⟩
  · exact (C6_bounding_box_analyzer (fun _ => ⟨0, 0, 0, 0⟩) 8 8 Option.none 0).1.mpr
      (by decide)
  · have h := ((C6_bounding_box_analyzer singlePixelData 8 8 Option.none 0).2
      ⟨5, 5, 5, 5, 1, 1⟩ (by decide)).1
    intro x hx y hy hc
    exact h x hx y hy hc

/-! ## Chroma-Key Engine -/

/-- The per-pixel body of the global chroma-key loop in `generateGif`
(source lines 505–515): a pixel whose alpha is 0, or whose squared
distance to the target is within the threshold, is rewritten to the
opaque key color; other pixels are left unchanged. -/
def globalKeyPixel (targetRGB keyColor : RGB) (thresholdSq : ℚ) (p : Pixel) : Pixel :=
  if p.a = 0 then ⟨keyColor.r, keyColor.g, keyColor.b, 255⟩
  else if (distSq p targetRGB : ℚ) ≤ thresholdSq then
    ⟨keyColor.r, keyColor.g, keyColor.b, 255⟩
  else p

/-- The global (non-flood) keying pass of `generateGif`: `globalKeyPixel`
applied to every pixel of the buffer. -/
def applyGlobalKey (data : ℕ → Pixel) (targetRGB keyColor : RGB)
    (thresholdSq : ℚ) : ℕ → Pixel :=
  fun v => globalKeyPixel targetRGB keyColor thresholdSq (data v)

/-- The `matches` predicate of `applyFloodFill` (source lines 177–187):
a pixel with alpha 0 matches unconditionally; otherwise it matches iff
its squared distance to the target is within the threshold. -/
def ffMatches (targetRGB : RGB) (thresholdSq : ℚ) (p : Pixel) : Bool :=
  if p.a = 0 then true else decide ((distSq p targetRGB : ℚ) ≤ thresholdSq)

/-- The combined seed/step acceptance test of the preview player's flood
fill (PreviewPlayer.tsx lines 54–96): `data[pIdx+3] > 0 && matches(pIdx)`,
where the preview's `matches` checks only the color distance. -/
def pvMatches (targetRGB : RGB) (thresholdSq : ℚ) (p : Pixel) : Bool :=
  decide (0 < p.a) && decide ((distSq p targetRGB : ℚ) ≤ thresholdSq)

/-! ## Claim C7 -/

/-- **C7.**  A pixel whose alpha is exactly 0 is classified as key by both
chroma-key modes of the export pipeline: the global mode rewrites it to
the opaque key color regardless of its RGB distance to the target, and the
flood-fill `matches` predicate accepts it — the two modes treat zero-alpha
source pixels identically. -/
theorem C7_zero_alpha_keyed_in_both_modes (targetRGB keyColor : RGB)
    (thresholdSq : ℚ) (p : Pixel) (h : p.a = 0) :
    globalKeyPixel targetRGB keyColor thresholdSq p =
      ⟨keyColor.r, keyColor.g, keyColor.b, 255⟩ ∧
    ffMatches targetRGB thresholdSq p = true := by
  unfold globalKeyPixel ffMatches
  rw [if_pos h, if_pos h]
  exact ⟨rfl, rfl⟩

/-- Witness for C7: a zero-alpha pixel far from a magenta target at zero
tolerance is keyed by the global pass and accepted by the flood match. -/
theorem C7_zero_alpha_keyed_in_both_modes_witness :
    (Pixel.a ⟨7, 8, 9, 0⟩ = 0) ∧
    globalKeyPixel ⟨255, 0, 255⟩ ⟨0, 255, 0⟩ 0 ⟨7, 8, 9, 0⟩ = ⟨0, 255, 0, 255⟩ ∧
    ffMatches ⟨255, 0, 255⟩ 0 ⟨7, 8, 9, 0⟩ = true :=
  ⟨rfl, (C7_zero_alpha_keyed_in_both_modes ⟨255, 0, 255⟩ ⟨0, 255, 0⟩ 0 _ rfl).1,
    (C7_zero_alpha_keyed_in_both_modes ⟨255, 0, 255⟩ ⟨0, 255, 0⟩ 0 _ rfl).2⟩

/-! ## Flood fill (`applyFloodFill`, source lines 162–242, and the preview
player's flood branch of `processTransparency`, lines 50–98).

Both implementations share the same structure: mark-before-enqueue seeding
from the four borders, then a breadth-first loop that dequeues `queue[head++]`,
rewrites the dequeued pixel, and enqueues every unvisited in-bounds
4-neighbor that matches.  They differ only in the match predicate and in
the rewrite applied to a dequeued pixel, so the state machine is
parameterised over both. -/

/-- Parameters of one flood-fill instance. -/
structure FFParams where
  w : ℕ
  h : ℕ
  matchB : Pixel → Bool
  writeB : Pixel → Pixel

/-- The flood fill's mutable state: pixel buffer, visited flags, the
queue (append-only), and the dequeue cursor `head`. -/
structure FFState where
  data : ℕ → Pixel
  visited : ℕ → Bool
  queue : List ℕ
  head : ℕ

/-- Mark a pixel visited and append it to the queue (the
`visited[vIdx] = 1; queue.push(vIdx)` pair of the source). -/
def pushState (st : FFState) (v : ℕ) : FFState :=
  { st with visited := fun i => if i = v then true else st.visited i,
            queue := st.queue ++ [v] }

/-- `addSeed(x, y)` (source lines 189–198): skip if already visited, else
mark-and-enqueue when the pixel matches. -/
def addSeed (P : FFParams) (x y : ℕ) (st : FFState) : FFState :=
  let vIdx := y * P.w + x
  if st.visited vIdx then st
  else if P.matchB (st.data vIdx) then pushState st vIdx
  else st

/-- Border seeding (source lines 200–207): all of row 0 and row `h-1`,
then columns 0 and `w-1` for `y` from 1 to `h-2`. -/
def seedBorders (P : FFParams) (st0 : FFState) : FFState :=
  let st1 := (List.range P.w).foldl
    (fun s x => addSeed P x (P.h - 1) (addSeed P x 0 s)) st0
  ((List.range (P.h - 2)).map (· + 1)).foldl
    (fun s y => addSeed P (P.w - 1) y (addSeed P 0 y s)) st1

/-- Processing of one neighbor candidate inside the dequeue loop (source
lines 229–240): bounds check, visited check, match check, then
mark-and-enqueue. -/
def ffStepNbr (P : FFParams) (s : FFState) (n : ℤ × ℤ) : FFState :=
  if 0 ≤ n.1 ∧ n.1 < (P.w : ℤ) ∧ 0 ≤ n.2 ∧ n.2 < (P.h : ℤ) then
    let nVIdx := (n.2 * (P.w : ℤ) + n.1).toNat
    if s.visited nVIdx then s
    else if P.matchB (s.data nVIdx) then pushState s nVIdx
    else s
  else s

/-- The body of one dequeue-loop iteration (source lines 211–240): read
`queue[head]` (in range whenever the loop guard holds; out of range the
`getD` default is never used), rewrite the dequeued pixel via `writeB`,
advance `head`, and process the four neighbor candidates
`(x+1,y), (x-1,y), (x,y+1), (x,y-1)`. -/
def ffStep (P : FFParams) (st : FFState) : FFState :=
  let vIdx := st.queue.getD st.head 0
  let x := vIdx % P.w
  let y := vIdx / P.w
  let st1 : FFState :=
    { data := fun i => if i = vIdx then P.writeB (st.data vIdx) else st.data i,
      visited := st.visited, queue := st.queue, head := st.head + 1 }
  [((x : ℤ) + 1, (y : ℤ)), ((x : ℤ) - 1, (y : ℤ)),
   ((x : ℤ), (y : ℤ) + 1), ((x : ℤ), (y : ℤ) - 1)].foldl (ffStepNbr P) st1

/-- The dequeue loop (source lines 209–241), with explicit fuel:
`while (head < queue.length)` run `ffStep`. -/
def ffLoop (P : FFParams) : ℕ → FFState → FFState
  | 0, st => st
  | fuel + 1, st =>
    if st.head < st.queue.length then ffLoop P fuel (ffStep P st) else st

/-- A complete flood-fill run: seed the borders, then run the loop.  The
fuel `w*h` is sufficient (each pixel is enqueued at most once, and every
iteration advances `head` by one — proved below). -/
def ffRun (P : FFParams) (data0 : ℕ → Pixel) : FFState :=
  ffLoop P (P.w * P.h) (seedBorders P ⟨data0, fun _ => false, [], 0⟩)

/-- `applyFloodFill` (export pipeline): match = `ffMatches`, rewrite =
opaque key color; returns the final pixel buffer. -/
def applyFloodFill (data : ℕ → Pixel) (width height : ℕ)
    (targetRGB keyColor : RGB) (thresholdSq : ℚ) : ℕ → Pixel :=
  (ffRun ⟨width, height, ffMatches targetRGB thresholdSq,
    fun _ => ⟨keyColor.r, keyColor.g, keyColor.b, 255⟩⟩ data).data

/-- The flood branch of the preview player's `processTransparency`:
match = `pvMatches`, rewrite = set alpha 0. -/
def processTransparencyFlood (data : ℕ → Pixel) (width height : ℕ)
    (targetRGB : RGB) (thresholdSq : ℚ) : ℕ → Pixel :=
  (ffRun ⟨width, height, pvMatches targetRGB thresholdSq,
    fun p => { p with a := 0 }⟩ data).data

/-! ### Reachability: the specification-side description of the region the
flood fill converts. -/

/-- 4-neighbor (N/S/E/W) adjacency of grid coordinates. -/
def AdjXY (x y x' y' : ℕ) : Prop :=
  (x' = x + 1 ∧ y' = y) ∨ (x = x' + 1 ∧ y' = y) ∨
  (x' = x ∧ y' = y + 1) ∨ (x' = x ∧ y = y' + 1)

instance (x y x' y' : ℕ) : Decidable (AdjXY x y x' y') := by
  unfold AdjXY
  infer_instance

/-- `(x, y)` lies on the bitmap border. -/
def IsBorder (w h x y : ℕ) : Prop :=
  x = 0 ∨ x = w - 1 ∨ y = 0 ∨ y = h - 1

instance (w h x y : ℕ) : Decidable (IsBorder w h x y) := by
  unfold IsBorder
  infer_instance

/-- Pixels reachable from a matching border pixel through a 4-neighbor
chain of matching pixels; `M v` says that the pixel at flat index `v`
matches (on the *original* bitmap). -/
inductive Reach (w h : ℕ) (M : ℕ → Prop) : ℕ → ℕ → Prop where
  | seed (x y : ℕ) : x < w → y < h → IsBorder w h x y → M (y * w + x) →
      Reach w h M x y
  | step (x y x' y' : ℕ) : Reach w h M x y → x' < w → y' < h →
      AdjXY x y x' y' → M (y' * w + x') → Reach w h M x' y'

lemma Reach.bounds {w h : ℕ} {M : ℕ → Prop} {x y : ℕ}
    (hr : Reach w h M x y) : x < w ∧ y < h := by
  cases hr with
  | seed x y hx hy _ _ => exact ⟨hx, hy⟩
  | step x0 y0 x y _ hx hy _ _ => exact ⟨hx, hy⟩

lemma Reach.matches {w h : ℕ} {M : ℕ → Prop} {x y : ℕ}
    (hr : Reach w h M x y) : M (y * w + x) := by
  cases hr with
  | seed x y _ _ _ hm => exact hm
  | step x0 y0 x y _ _ _ _ hm => exact hm

/-! ### Flood-fill invariants -/

lemma idx_lt {w h x y : ℕ} (hx : x < w) (hy : y < h) : y * w + x < w * h := by
  calc y * w + x < y * w + w := by omega
    _ = (y + 1) * w := by ring
    _ ≤ h * w := Nat.mul_le_mul_right w hy
    _ = w * h := Nat.mul_comm h w

lemma idx_mod {w x : ℕ} (y : ℕ) (hx : x < w) : (y * w + x) % w = x := by
  rw [Nat.mul_comm y w, Nat.mul_add_mod, Nat.mod_eq_of_lt hx]

lemma idx_div {w x : ℕ} (y : ℕ) (hx : x < w) : (y * w + x) / w = y := by
  have hw : 0 < w := lt_of_le_of_lt (Nat.zero_le x) hx
  rw [Nat.mul_comm y w, Nat.mul_add_div hw, Nat.div_eq_of_lt hx, Nat.add_zero]

/-- `M v` = the pixel at flat index `v` of the original bitmap matches. -/
def matchOn (P : FFParams) (orig : ℕ → Pixel) : ℕ → Prop :=
  fun v => P.matchB (orig v) = true

/-- The core invariant of the flood fill, relative to the original bitmap
`orig`:
* `hvq`: a pixel is marked visited exactly when it is in the queue
  (mark-before-enqueue);
* `hnd`: no pixel is enqueued twice;
* `hmem`: every enqueued pixel is in bounds and reachable;
* `hhead`: the dequeue cursor never passes the queue's end;
* `hdata`: exactly the already-dequeued pixels (`queue.take head`) have
  been rewritten, each from its original value. -/
structure FFCore (P : FFParams) (orig : ℕ → Pixel) (st : FFState) : Prop where
  hvq : ∀ v, st.visited v = true ↔ v ∈ st.queue
  hnd : st.queue.Nodup
  hmem : ∀ v ∈ st.queue, v < P.w * P.h ∧
    Reach P.w P.h (matchOn P orig) (v % P.w) (v / P.w)
  hhead : st.head ≤ st.queue.length
  hdata : ∀ v, st.data v =
    if v ∈ st.queue.take st.head then P.writeB (orig v) else orig v

/-- Every matching in-bounds neighbor of a pixel of `S` has been marked
visited. -/
def hprocFor (P : FFParams) (orig : ℕ → Pixel) (st : FFState) (S : List ℕ) : Prop :=
  ∀ v ∈ S, ∀ x' y', x' < P.w → y' < P.h →
    AdjXY (v % P.w) (v / P.w) x' y' → matchOn P orig (y' * P.w + x') →
    st.visited (y' * P.w + x') = true

/-- The full loop invariant: the core plus neighbor-completeness for every
already-dequeued pixel. -/
structure FFInv (P : FFParams) (orig : ℕ → Pixel) (st : FFState)
    extends FFCore P orig st : Prop where
  hproc : hprocFor P orig st (st.queue.take st.head)

lemma FFCore.data_unvisited {P : FFParams} {orig : ℕ → Pixel} {st : FFState}
    (hc : FFCore P orig st) {v : ℕ} (hnv : ¬st.visited v = true) :
    st.data v = orig v := by
  have hvq : v ∉ st.queue := fun hm => hnv ((hc.hvq v).mpr hm)
  have hvt : v ∉ st.queue.take st.head := fun hm => hvq (List.take_subset _ _ hm)
  rw [hc.hdata v, if_neg hvt]

lemma pushState_core {P : FFParams} {orig : ℕ → Pixel} {st : FFState} {v : ℕ}
    (hc : FFCore P orig st) (hv : v < P.w * P.h)
    (hr : Reach P.w P.h (matchOn P orig) (v % P.w) (v / P.w))
    (hnv : ¬st.visited v = true) : FFCore P orig (pushState st v) := by
  have hvnq : v ∉ st.queue := fun hm => hnv ((hc.hvq v).mpr hm)
  refine ⟨?_, ?_, ?_, ?_, ?_⟩
  · intro u
    by_cases hu : u = v
    · subst hu
      simp [pushState]
    · simp only [pushState, List.mem_append, List.mem_singleton, if_neg hu, hu,
        or_false]
      exact hc.hvq u
  · simp only [pushState]
    rw [List.nodup_append]
    refine ⟨hc.hnd, List.nodup_singleton v, ?_⟩
    intro a ha hb
    exact hvnq ((List.mem_singleton.mp hb) ▸ ha)
  · intro u hu
    simp only [pushState, List.mem_append, List.mem_singleton] at hu
    rcases hu with hu | rfl
    · exact hc.hmem u hu
    · exact ⟨hv, hr⟩
  · simp only [pushState, List.length_append, List.length_singleton]
    exact le_trans hc.hhead (Nat.le_succ _)
  · intro u
    simp only [pushState, List.take_append_of_le_length hc.hhead]
    exact hc.hdata u

lemma pushState_head {st : FFState} {v : ℕ} : (pushState st v).head = st.head := rfl

lemma pushState_visited_mono {st : FFState} {v u : ℕ}
    (h : st.visited u = true) : (pushState st v).visited u = true := by
  simp only [pushState]
  by_cases hu : u = v <;> simp [hu, h]

lemma pushState_procFor {P : FFParams} {orig : ℕ → Pixel} {st : FFState}
    {v : ℕ} {S : List ℕ} (h : hprocFor P orig st S) :
    hprocFor P orig (pushState st v) S := by
  intro u hu x' y' hx' hy' hadj hm
  exact pushState_visited_mono (h u hu x' y' hx' hy' hadj hm)

lemma pushState_inv {P : FFParams} {orig : ℕ → Pixel} {st : FFState} {v : ℕ}
    (hinv : FFInv P orig st) (hv : v < P.w * P.h)
    (hr : Reach P.w P.h (matchOn P orig) (v % P.w) (v / P.w))
    (hnv : ¬st.visited v = true) : FFInv P orig (pushState st v) := by
  refine ⟨pushState_core hinv.toFFCore hv hr hnv, ?_⟩
  have hp : hprocFor P orig (pushState st v) (st.queue.take st.head) :=
    pushState_procFor hinv.hproc
  simpa [pushState, List.take_append_of_le_length hinv.hhead] using hp

lemma addSeed_inv {P : FFParams} {orig : ℕ → Pixel} {st : FFState} {x y : ℕ}
    (hx : x < P.w) (hy : y < P.h) (hb : IsBorder P.w P.h x y)
    (hinv : FFInv P orig st) (hh0 : st.head = 0) :
    FFInv P orig (addSeed P x y st) ∧ (addSeed P x y st).head = 0 := by
  unfold addSeed
  by_cases hv : st.visited (y * P.w + x) = true
  · rw [if_pos hv]
    exact ⟨hinv, hh0⟩
  · rw [if_neg hv]
    have hdeq : st.data (y * P.w + x) = orig (y * P.w + x) :=
      hinv.toFFCore.data_unvisited hv
    by_cases hm : P.matchB (st.data (y * P.w + x)) = true
    · rw [if_pos hm]
      refine ⟨pushState_inv hinv (idx_lt hx hy) ?_ hv, hh0 ▸ pushState_head⟩
      rw [idx_mod y hx, idx_div y hx]
      exact Reach.seed x y hx hy hb (by rwa [hdeq] at hm)
    · rw [if_neg hm]
      exact ⟨hinv, hh0⟩

lemma addSeed_visited_mono {P : FFParams} {st : FFState} {x y u : ℕ}
    (h : st.visited u = true) : (addSeed P x y st).visited u = true := by
  unfold addSeed
  dsimp only
  split_ifs with h1 h2
  · exact h
  · exact pushState_visited_mono h
  · exact h

lemma addSeed_sets {P : FFParams} {orig : ℕ → Pixel} {st : FFState} (x y : ℕ)
    (hinv : FFInv P orig st)
    (hm : P.matchB (orig (y * P.w + x)) = true) :
    (addSeed P x y st).visited (y * P.w + x) = true := by
  unfold addSeed
  by_cases hv : st.visited (y * P.w + x) = true
  · rw [if_pos hv]
    exact hv
  · have hdeq : st.data (y * P.w + x) = orig (y * P.w + x) :=
      hinv.toFFCore.data_unvisited hv
    rw [if_neg hv, if_pos (by rw [hdeq]; exact hm)]
    simp [pushState]

lemma init_inv (P : FFParams) (orig : ℕ → Pixel) :
    FFInv P orig ⟨orig, fun _ => false, [], 0⟩ := by
  refine ⟨⟨?_, List.nodup_nil, ?_, le_refl 0, ?_⟩, ?_⟩
  · intro v
    simp
  · intro v hv
    exact absurd hv (List.not_mem_nil v)
  · intro v
    simp
  · intro v hv
    simp at hv

lemma seedRow_fold {P : FFParams} {orig : ℕ → Pixel} (hh : 0 < P.h)
    (l : List ℕ) (st : FFState) (hl : ∀ x ∈ l, x < P.w)
    (hinv : FFInv P orig st) (hh0 : st.head = 0) :
    FFInv P orig (l.foldl (fun s x => addSeed P x (P.h - 1) (addSeed P x 0 s)) st) ∧
    (l.foldl (fun s x => addSeed P x (P.h - 1) (addSeed P x 0 s)) st).head = 0 ∧
    (∀ u, st.visited u = true →
      (l.foldl (fun s x => addSeed P x (P.h - 1) (addSeed P x 0 s)) st).visited u = true) ∧
    (∀ x ∈ l,
      (P.matchB (orig (0 * P.w + x)) = true →
        (l.foldl (fun s x => addSeed P x (P.h - 1) (addSeed P x 0 s)) st).visited
          (0 * P.w + x) = true) ∧
      (P.matchB (orig ((P.h - 1) * P.w + x)) = true →
        (l.foldl (fun s x => addSeed P x (P.h - 1) (addSeed P x 0 s)) st).visited
          ((P.h - 1) * P.w + x) = true)) := by
  induction l generalizing st with
  | nil =>
      exact ⟨hinv, hh0, fun u h => h, by simp⟩
  | cons a l ih =>
      have ha : a < P.w := hl a (List.mem_cons_self _ _)
      have hhl : ∀ x ∈ l, x < P.w := fun x hx => hl x (List.mem_cons_of_mem _ hx)
      have hstep0 := addSeed_inv ha hh (Or.inr (Or.inr (Or.inl rfl))) hinv hh0
      have hstep1 := addSeed_inv ha (Nat.sub_lt hh Nat.one_pos)
        (Or.inr (Or.inr (Or.inr rfl))) hstep0.1 hstep0.2
      have hres := ih (addSeed P a (P.h - 1) (addSeed P a 0 st)) hhl hstep1.1 hstep1.2
      have hsetA : (addSeed P a (P.h - 1) (addSeed P a 0 st)).visited (0 * P.w + a) =
          true → True := fun _ => trivial
      refine ⟨hres.1, hres.2.1, ?_, ?_⟩
      · intro u hu
        exact hres.2.2.1 u (addSeed_visited_mono (addSeed_visited_mono hu))
      · intro x hx
        rcases List.mem_cons.mp hx with rfl | hx
        · constructor
          · intro hm
            have h1 : (addSeed P x 0 st).visited (0 * P.w + x) = true :=
              addSeed_sets x 0 hinv hm
            exact hres.2.2.1 _ (addSeed_visited_mono h1)
          · intro hm
            have h1 : (addSeed P x (P.h - 1) (addSeed P x 0 st)).visited
                ((P.h - 1) * P.w + x) = true :=
              addSeed_sets x (P.h - 1) hstep0.1 hm
            exact hres.2.2.1 _ h1
        · exact hres.2.2.2 x hx

lemma seedCol_fold {P : FFParams} {orig : ℕ → Pixel} (hw : 0 < P.w)
    (l : List ℕ) (st : FFState) (hl : ∀ y ∈ l, y < P.h)
    (hinv : FFInv P orig st) (hh0 : st.head = 0) :
    FFInv P orig (l.foldl (fun s y => addSeed P (P.w - 1) y (addSeed P 0 y s)) st) ∧
    (l.foldl (fun s y => addSeed P (P.w - 1) y (addSeed P 0 y s)) st).head = 0 ∧
    (∀ u, st.visited u = true →
      (l.foldl (fun s y => addSeed P (P.w - 1) y (addSeed P 0 y s)) st).visited u = true) ∧
    (∀ y ∈ l,
      (P.matchB (orig (y * P.w + 0)) = true →
        (l.foldl (fun s y => addSeed P (P.w - 1) y (addSeed P 0 y s)) st).visited
          (y * P.w + 0) = true) ∧
      (P.matchB (orig (y * P.w + (P.w - 1))) = true →
        (l.foldl (fun s y => addSeed P (P.w - 1) y (addSeed P 0 y s)) st).visited
          (y * P.w + (P.w - 1)) = true)) := by
  induction l generalizing st with
  | nil =>
      exact ⟨hinv, hh0, fun u h => h, by simp⟩
  | cons a l ih =>
      have ha : a < P.h := hl a (List.mem_cons_self _ _)
      have hhl : ∀ y ∈ l, y < P.h := fun y hy => hl y (List.mem_cons_of_mem _ hy)
      have hstep0 := addSeed_inv hw ha (Or.inl rfl) hinv hh0
      have hstep1 := addSeed_inv (Nat.sub_lt hw Nat.one_pos) ha
        (Or.inr (Or.inl rfl)) hstep0.1 hstep0.2
      have hres := ih (addSeed P (P.w - 1) a (addSeed P 0 a st)) hhl hstep1.1 hstep1.2
      refine ⟨hres.1, hres.2.1, ?_, ?_⟩
      · intro u hu
        exact hres.2.2.1 u (addSeed_visited_mono (addSeed_visited_mono hu))
      · intro y hy
        rcases List.mem_cons.mp hy with rfl | hy
        · constructor
          · intro hm
            have h1 : (addSeed P 0 y st).visited (y * P.w + 0) = true :=
              addSeed_sets 0 y hinv hm
            exact hres.2.2.1 _ (addSeed_visited_mono h1)
          · intro hm
            have h1 : (addSeed P (P.w - 1) y (addSeed P 0 y st)).visited
                (y * P.w + (P.w - 1)) = true :=
              addSeed_sets (P.w - 1) y hstep0.1 hm
            exact hres.2.2.1 _ h1
        · exact hres.2.2.2 y hy

lemma seedBorders_spec (P : FFParams) (orig : ℕ → Pixel) (hw : 0 < P.w)
    (hh : 0 < P.h) :
    FFInv P orig (seedBorders P ⟨orig, fun _ => false, [], 0⟩) ∧
    (seedBorders P ⟨orig, fun _ => false, [], 0⟩).head = 0 ∧
    ∀ x y, x < P.w → y < P.h → IsBorder P.w P.h x y →
      P.matchB (orig (y * P.w + x)) = true →
      (seedBorders P ⟨orig, fun _ => false, [], 0⟩).visited (y * P.w + x) = true := by
  have hrow := seedRow_fold hh (List.range P.w) ⟨orig, fun _ => false, [], 0⟩
    (fun x hx => List.mem_range.mp hx) (init_inv P orig) rfl
  have hcol := seedCol_fold hw ((List.range (P.h - 2)).map (· + 1))
    ((List.range P.w).foldl (fun s x => addSeed P x (P.h - 1) (addSeed P x 0 s))
      ⟨orig, fun _ => false, [], 0⟩)
    (by
      intro y hy
      simp only [List.mem_map, List.mem_range] at hy
      obtain ⟨a, haa, rfl⟩ := hy
      omega)
    hrow.1 hrow.2.1
  have hsb : seedBorders P ⟨orig, fun _ => false, [], 0⟩ =
      ((List.range (P.h - 2)).map (· + 1)).foldl
        (fun s y => addSeed P (P.w - 1) y (addSeed P 0 y s))
        ((List.range P.w).foldl (fun s x => addSeed P x (P.h - 1) (addSeed P x 0 s))
          ⟨orig, fun _ => false, [], 0⟩) := rfl
  rw [hsb]
  refine ⟨hcol.1, hcol.2.1, ?_⟩
  intro x y hx hy hb hm
  by_cases hy0 : y = 0
  · subst hy0
    exact hcol.2.2.1 _ ((hrow.2.2.2 x (List.mem_range.mpr hx)).1 hm)
  · by_cases hyh : y = P.h - 1
    · subst hyh
      exact hcol.2.2.1 _ ((hrow.2.2.2 x (List.mem_range.mpr hx)).2 hm)
    · have hymem : y ∈ (List.range (P.h - 2)).map (· + 1) := by
        simp only [List.mem_map, List.mem_range]
        exact ⟨y - 1, by omega, by omega⟩
      rcases hb with hb | hb | hb | hb
      · subst hb
        exact (hcol.2.2.2 y hymem).1 hm
      · subst hb
        exact (hcol.2.2.2 y hymem).2 hm
      · exact absurd hb hy0
      · exact absurd hb hyh

lemma toNat_idx (w x y : ℕ) : ((y : ℤ) * (w : ℤ) + (x : ℤ)).toNat = y * w + x := by
  rw [show (y : ℤ) * (w : ℤ) + (x : ℤ) = ((y * w + x : ℕ) : ℤ) by push_cast; ring]
  exact Int.toNat_natCast _

lemma getElem_not_mem_take {l : List ℕ} (hnd : l.Nodup) {i : ℕ}
    (hi : i < l.length) : l[i] ∉ l.take i := by
  intro hmem
  have hdisj := List.disjoint_take_drop hnd (le_refl i)
  have hdrop : l[i] ∈ l.drop i := by
    rw [List.drop_eq_getElem_cons hi]
    exact List.mem_cons_self _ _
  exact hdisj hmem hdrop

/-- What must hold of a neighbor candidate `n` for the loop to be allowed
to enqueue it: if it is in bounds and its pixel matches on the original
bitmap, then its flat index is in range and reachable. -/
def NbrSpec (P : FFParams) (orig : ℕ → Pixel) (n : ℤ × ℤ) : Prop :=
  0 ≤ n.1 → n.1 < (P.w : ℤ) → 0 ≤ n.2 → n.2 < (P.h : ℤ) →
  matchOn P orig ((n.2 * (P.w : ℤ) + n.1).toNat) →
  (n.2 * (P.w : ℤ) + n.1).toNat < P.w * P.h ∧
    Reach P.w P.h (matchOn P orig) ((n.2 * (P.w : ℤ) + n.1).toNat % P.w)
      ((n.2 * (P.w : ℤ) + n.1).toNat / P.w)

lemma nbrSpec_of_adj {P : FFParams} {orig : ℕ → Pixel} {vIdx : ℕ}
    (hvr : Reach P.w P.h (matchOn P orig) (vIdx % P.w) (vIdx / P.w))
    {n : ℤ × ℤ} {x' y' : ℕ} (hx' : x' < P.w) (hy' : y' < P.h)
    (hto : (n.2 * (P.w : ℤ) + n.1).toNat = y' * P.w + x')
    (hadj : AdjXY (vIdx % P.w) (vIdx / P.w) x' y') :
    matchOn P orig ((n.2 * (P.w : ℤ) + n.1).toNat) →
      (n.2 * (P.w : ℤ) + n.1).toNat < P.w * P.h ∧
        Reach P.w P.h (matchOn P orig) ((n.2 * (P.w : ℤ) + n.1).toNat % P.w)
          ((n.2 * (P.w : ℤ) + n.1).toNat / P.w) := by
  intro hm
  rw [hto] at hm ⊢
  rw [idx_mod y' hx', idx_div y' hx']
  exact ⟨idx_lt hx' hy', Reach.step _ _ x' y' hvr hx' hy' hadj hm⟩

lemma ffStepNbr_data {P : FFParams} {s : FFState} {n : ℤ × ℤ} :
    (ffStepNbr P s n).data = s.data := by
  unfold ffStepNbr pushState
  dsimp only
  split_ifs <;> rfl

lemma ffStepNbr_head {P : FFParams} {s : FFState} {n : ℤ × ℤ} :
    (ffStepNbr P s n).head = s.head := by
  unfold ffStepNbr pushState
  dsimp only
  split_ifs <;> rfl

lemma ffStepNbr_queue_ext {P : FFParams} {s : FFState} {n : ℤ × ℤ} :
    ∃ q', (ffStepNbr P s n).queue = s.queue ++ q' := by
  unfold ffStepNbr pushState
  dsimp only
  split_ifs
  · exact ⟨[], by simp⟩
  · exact ⟨[(n.2 * (P.w : ℤ) + n.1).toNat], rfl⟩
  · exact ⟨[], by simp⟩
  · exact ⟨[], by simp⟩

lemma ffStepNbr_visited_mono {P : FFParams} {s : FFState} {n : ℤ × ℤ} {u : ℕ}
    (h : s.visited u = true) : (ffStepNbr P s n).visited u = true := by
  unfold ffStepNbr
  dsimp only
  split_ifs
  · exact h
  · exact pushState_visited_mono h
  · exact h
  · exact h

lemma ffStepNbr_core {P : FFParams} {orig : ℕ → Pixel} {s : FFState}
    (hc : FFCore P orig s) {n : ℤ × ℤ} (hn : NbrSpec P orig n) :
    FFCore P orig (ffStepNbr P s n) := by
  unfold ffStepNbr
  dsimp only
  split_ifs with hb hv hm
  · exact hc
  · have hdeq := hc.data_unvisited hv
    have hmo : matchOn P orig ((n.2 * (P.w : ℤ) + n.1).toNat) := by
      unfold matchOn
      rw [← hdeq]
      exact hm
    obtain ⟨h1, h2⟩ := hn hb.1 hb.2.1 hb.2.2.1 hb.2.2.2 hmo
    exact pushState_core hc h1 h2 hv
  · exact hc
  · exact hc

lemma ffStepNbr_procFor {P : FFParams} {orig : ℕ → Pixel} {s : FFState}
    {n : ℤ × ℤ} {S : List ℕ} (h : hprocFor P orig s S) :
    hprocFor P orig (ffStepNbr P s n) S :=
  fun v hv x' y' hx' hy' hadj hm =>
    ffStepNbr_visited_mono (h v hv x' y' hx' hy' hadj hm)

lemma ffStepNbr_sets {P : FFParams} {orig : ℕ → Pixel} {s : FFState}
    (hc : FFCore P orig s) {n : ℤ × ℤ}
    (hb : 0 ≤ n.1 ∧ n.1 < (P.w : ℤ) ∧ 0 ≤ n.2 ∧ n.2 < (P.h : ℤ))
    (hm : matchOn P orig ((n.2 * (P.w : ℤ) + n.1).toNat)) :
    (ffStepNbr P s n).visited ((n.2 * (P.w : ℤ) + n.1).toNat) = true := by
  unfold ffStepNbr
  dsimp only
  rw [if_pos hb]
  by_cases hv : s.visited ((n.2 * (P.w : ℤ) + n.1).toNat) = true
  · rw [if_pos hv]
    exact hv
  · have hdeq := hc.data_unvisited hv
    rw [if_neg hv, if_pos (show P.matchB (s.data ((n.2 * (P.w : ℤ) + n.1).toNat)) =
      true by rw [hdeq]; exact hm)]
    simp [pushState]

lemma foldl_nbr_head {P : FFParams} (l : List (ℤ × ℤ)) (s : FFState) :
    (l.foldl (ffStepNbr P) s).head = s.head := by
  induction l generalizing s with
  | nil => rfl
  | cons a l ih =>
      rw [List.foldl_cons, ih]
      exact ffStepNbr_head

lemma foldl_nbr_data {P : FFParams} (l : List (ℤ × ℤ)) (s : FFState) :
    (l.foldl (ffStepNbr P) s).data = s.data := by
  induction l generalizing s with
  | nil => rfl
  | cons a l ih =>
      rw [List.foldl_cons, ih]
      exact ffStepNbr_data

lemma foldl_nbr_queue_ext {P : FFParams} (l : List (ℤ × ℤ)) (s : FFState) :
    ∃ q', (l.foldl (ffStepNbr P) s).queue = s.queue ++ q' := by
  induction l generalizing s with
  | nil => exact ⟨[], by simp⟩
  | cons a l ih =>
      rw [List.foldl_cons]
      obtain ⟨q1, hq1⟩ := ih (ffStepNbr P s a)
      obtain ⟨q0, hq0⟩ := ffStepNbr_queue_ext (P := P) (s := s) (n := a)
      exact ⟨q0 ++ q1, by rw [hq1, hq0, List.append_assoc]⟩

lemma foldl_nbr_visited_mono {P : FFParams} (l : List (ℤ × ℤ)) (s : FFState)
    {u : ℕ} (h : s.visited u = true) :
    (l.foldl (ffStepNbr P) s).visited u = true := by
  induction l generalizing s with
  | nil => exact h
  | cons a l ih =>
      rw [List.foldl_cons]
      exact ih _ (ffStepNbr_visited_mono h)

lemma foldl_nbr_core {P : FFParams} {orig : ℕ → Pixel} (l : List (ℤ × ℤ))
    (s : FFState) (hc : FFCore P orig s) (hns : ∀ n ∈ l, NbrSpec P orig n) :
    FFCore P orig (l.foldl (ffStepNbr P) s) := by
  induction l generalizing s with
  | nil => exact hc
  | cons a l ih =>
      rw [List.foldl_cons]
      exact ih _ (ffStepNbr_core hc (hns a (List.mem_cons_self _ _)))
        (fun n hn => hns n (List.mem_cons_of_mem _ hn))

lemma foldl_nbr_procFor {P : FFParams} {orig : ℕ → Pixel} (l : List (ℤ × ℤ))
    (s : FFState) {S : List ℕ} (h : hprocFor P orig s S) :
    hprocFor P orig (l.foldl (ffStepNbr P) s) S := by
  induction l generalizing s with
  | nil => exact h
  | cons a l ih =>
      rw [List.foldl_cons]
      exact ih _ (ffStepNbr_procFor h)

lemma foldl_nbr_sets {P : FFParams} {orig : ℕ → Pixel} (l : List (ℤ × ℤ))
    (s : FFState) (hc : FFCore P orig s) (hns : ∀ n ∈ l, NbrSpec P orig n)
    {n₀ : ℤ × ℤ} (hmem : n₀ ∈ l)
    (hb : 0 ≤ n₀.1 ∧ n₀.1 < (P.w : ℤ) ∧ 0 ≤ n₀.2 ∧ n₀.2 < (P.h : ℤ))
    (hm : matchOn P orig ((n₀.2 * (P.w : ℤ) + n₀.1).toNat)) :
    (l.foldl (ffStepNbr P) s).visited ((n₀.2 * (P.w : ℤ) + n₀.1).toNat) = true := by
  induction l generalizing s with
  | nil => exact absurd hmem (List.not_mem_nil _)
  | cons a l ih =>
      rw [List.foldl_cons]
      rcases List.mem_cons.mp hmem with rfl | hmem'
      · exact foldl_nbr_visited_mono l _ (ffStepNbr_sets hc hb hm)
      · exact ih (ffStepNbr P s a)
          (ffStepNbr_core hc (hns a (List.mem_cons_self _ _)))
          (fun n hn => hns n (List.mem_cons_of_mem _ hn)) hmem'

lemma ffStep_spec {P : FFParams} {orig : ℕ → Pixel} {st : FFState}
    (hinv : FFInv P orig st) (hq : st.head < st.queue.length) :
    FFInv P orig (ffStep P st) ∧
    (ffStep P st).head = st.head + 1 ∧
    (∀ u, st.visited u = true → (ffStep P st).visited u = true) ∧
    ∃ q', (ffStep P st).queue = st.queue ++ q' := by
  set vIdx := st.queue.getD st.head 0 with hvdef
  have hvget : vIdx = st.queue[st.head] := List.getD_eq_getElem st.queue 0 hq
  have hvmem : vIdx ∈ st.queue := by
    rw [hvget]
    exact List.getElem_mem hq
  obtain ⟨hvb, hvr⟩ := hinv.hmem vIdx hvmem
  have hwh : 0 < P.w * P.h := Nat.lt_of_le_of_lt (Nat.zero_le _) hvb
  have hw : 0 < P.w := by
    rcases Nat.eq_zero_or_pos P.w with h0 | h
    · rw [h0] at hwh
      simp at hwh
    · exact h
  have hxw : vIdx % P.w < P.w := Nat.mod_lt _ hw
  have hyh : vIdx / P.w < P.h := by
    rw [Nat.div_lt_iff_lt_mul hw, Nat.mul_comm]
    exact hvb
  have hvnotin : vIdx ∉ st.queue.take st.head := by
    rw [hvget]
    exact getElem_not_mem_take hinv.hnd hq
  set st1 : FFState :=
    { data := fun i => if i = vIdx then P.writeB (st.data vIdx) else st.data i,
      visited := st.visited, queue := st.queue, head := st.head + 1 } with hst1
  set L : List (ℤ × ℤ) :=
    [(((vIdx % P.w : ℕ) : ℤ) + 1, ((vIdx / P.w : ℕ) : ℤ)),
     (((vIdx % P.w : ℕ) : ℤ) - 1, ((vIdx / P.w : ℕ) : ℤ)),
     (((vIdx % P.w : ℕ) : ℤ), ((vIdx / P.w : ℕ) : ℤ) + 1),
     (((vIdx % P.w : ℕ) : ℤ), ((vIdx / P.w : ℕ) : ℤ) - 1)] with hL
  have hunfold : ffStep P st = L.foldl (ffStepNbr P) st1 := rfl
  have hq1 : st.head + 1 ≤ st.queue.length := hq
  have htake1 : st.queue.take (st.head + 1) = st.queue.take st.head ++ [vIdx] := by
    rw [List.take_succ, List.getElem?_eq_getElem hq, hvget]
    rfl
  have core1 : FFCore P orig st1 := by
    refine ⟨hinv.hvq, hinv.hnd, hinv.hmem, hq, ?_⟩
    intro v
    show (if v = vIdx then P.writeB (st.data vIdx) else st.data v) =
      if v ∈ st.queue.take (st.head + 1) then P.writeB (orig v) else orig v
    rw [htake1]
    by_cases hv : v = vIdx
    · subst hv
      have hdv : st.data vIdx = orig vIdx := by
        rw [hinv.hdata vIdx, if_neg hvnotin]
      rw [if_pos rfl, if_pos (by simp), hdv]
    · rw [if_neg hv, hinv.hdata v]
      by_cases hvt : v ∈ st.queue.take st.head
      · rw [if_pos hvt, if_pos (List.mem_append_left _ hvt)]
      · rw [if_neg hvt, if_neg (by simp [hvt, hv])]
  have proc1 : hprocFor P orig st1 (st.queue.take st.head) := hinv.hproc
  have hns : ∀ n ∈ L, NbrSpec P orig n := by
    intro n hn
    rw [hL] at hn
    simp only [List.mem_cons, List.not_mem_nil, or_false] at hn
    rcases hn with rfl | rfl | rfl | rfl
    · intro h1 h2 h3 h4
      dsimp only at h1 h2 h3 h4
      have hx1 : vIdx % P.w + 1 < P.w := by exact_mod_cast h2
      have hto : (((vIdx / P.w : ℕ) : ℤ) * (P.w : ℤ) + (((vIdx % P.w : ℕ) : ℤ) + 1)).toNat =
          (vIdx / P.w) * P.w + (vIdx % P.w + 1) := by
        rw [show ((vIdx / P.w : ℕ) : ℤ) * (P.w : ℤ) + (((vIdx % P.w : ℕ) : ℤ) + 1) =
          (((vIdx / P.w) * P.w + (vIdx % P.w + 1) : ℕ) : ℤ) by push_cast; ring]
        exact Int.toNat_natCast _
      exact nbrSpec_of_adj hvr hx1 hyh hto (Or.inl ⟨rfl, rfl⟩)
    · intro h1 h2 h3 h4
      dsimp only at h1 h2 h3 h4
      have hx1 : 1 ≤ vIdx % P.w := by omega
      have hxw' : vIdx % P.w - 1 < P.w := by omega
      have hto : (((vIdx / P.w : ℕ) : ℤ) * (P.w : ℤ) + (((vIdx % P.w : ℕ) : ℤ) - 1)).toNat =
          (vIdx / P.w) * P.w + (vIdx % P.w - 1) := by
        rw [show ((vIdx / P.w : ℕ) : ℤ) * (P.w : ℤ) + (((vIdx % P.w : ℕ) : ℤ) - 1) =
          (((vIdx / P.w) * P.w + (vIdx % P.w - 1) : ℕ) : ℤ) by push_cast [hx1]; ring]
        exact Int.toNat_natCast _
      exact nbrSpec_of_adj hvr hxw' hyh hto (Or.inr (Or.inl ⟨by omega, rfl⟩))
    · intro h1 h2 h3 h4
      dsimp only at h1 h2 h3 h4
      have hy1 : vIdx / P.w + 1 < P.h := by exact_mod_cast h4
      have hto : ((((vIdx / P.w : ℕ) : ℤ) + 1) * (P.w : ℤ) + ((vIdx % P.w : ℕ) : ℤ)).toNat =
          (vIdx / P.w + 1) * P.w + vIdx % P.w := by
        rw [show (((vIdx / P.w : ℕ) : ℤ) + 1) * (P.w : ℤ) + ((vIdx % P.w : ℕ) : ℤ) =
          (((vIdx / P.w + 1) * P.w + vIdx % P.w : ℕ) : ℤ) by push_cast; ring]
        exact Int.toNat_natCast _
      exact nbrSpec_of_adj hvr hxw hy1 hto (Or.inr (Or.inr (Or.inl ⟨rfl, rfl⟩)))
    · intro h1 h2 h3 h4
      dsimp only at h1 h2 h3 h4
      have hy1 : 1 ≤ vIdx / P.w := by omega
      have hyh' : vIdx / P.w - 1 < P.h := by omega
      have hto : ((((vIdx / P.w : ℕ) : ℤ) - 1) * (P.w : ℤ) + ((vIdx % P.w : ℕ) : ℤ)).toNat =
          (vIdx / P.w - 1) * P.w + vIdx % P.w := by
        rw [show (((vIdx / P.w : ℕ) : ℤ) - 1) * (P.w : ℤ) + ((vIdx % P.w : ℕ) : ℤ) =
          (((vIdx / P.w - 1) * P.w + vIdx % P.w : ℕ) : ℤ) by push_cast [hy1]; ring]
        exact Int.toNat_natCast _
      exact nbrSpec_of_adj hvr hxw hyh' hto (Or.inr (Or.inr (Or.inr ⟨rfl, by omega⟩)))
  have coreD : FFCore P orig (L.foldl (ffStepNbr P) st1) :=
    foldl_nbr_core L st1 core1 hns
  have hheadD : (L.foldl (ffStepNbr P) st1).head = st.head + 1 := by
    rw [foldl_nbr_head]
  have hmonoD : ∀ u, st.visited u = true →
      (L.foldl (ffStepNbr P) st1).visited u = true :=
    fun u hu => foldl_nbr_visited_mono L st1 hu
  obtain ⟨qD, hqD⟩ := foldl_nbr_queue_ext (P := P) L st1
  have hprocSmall : hprocFor P orig (L.foldl (ffStepNbr P) st1)
      (st.queue.take st.head) :=
    foldl_nbr_procFor L st1 proc1
  have hprocV : ∀ x' y', x' < P.w → y' < P.h →
      AdjXY (vIdx % P.w) (vIdx / P.w) x' y' → matchOn P orig (y' * P.w + x') →
      (L.foldl (ffStepNbr P) st1).visited (y' * P.w + x') = true := by
    intro x' y' hx' hy' hadj hm
    unfold AdjXY at hadj
    rcases hadj with ⟨hxe, hye⟩ | ⟨hxe, hye⟩ | ⟨hxe, hye⟩ | ⟨hxe, hye⟩
    · subst hxe
      subst hye
      have hto : (((vIdx / P.w : ℕ) : ℤ) * (P.w : ℤ) + (((vIdx % P.w : ℕ) : ℤ) + 1)).toNat =
          (vIdx / P.w) * P.w + (vIdx % P.w + 1) := by
        rw [show ((vIdx / P.w : ℕ) : ℤ) * (P.w : ℤ) + (((vIdx % P.w : ℕ) : ℤ) + 1) =
          (((vIdx / P.w) * P.w + (vIdx % P.w + 1) : ℕ) : ℤ) by push_cast; ring]
        exact Int.toNat_natCast _
      have hmem0 : (((vIdx % P.w : ℕ) : ℤ) + 1, ((vIdx / P.w : ℕ) : ℤ)) ∈ L := by
        rw [hL]
        exact List.mem_cons_self _ _
      have hb0 : (0 : ℤ) ≤ ((vIdx % P.w : ℕ) : ℤ) + 1 ∧
          ((vIdx % P.w : ℕ) : ℤ) + 1 < (P.w : ℤ) ∧
          (0 : ℤ) ≤ ((vIdx / P.w : ℕ) : ℤ) ∧ ((vIdx / P.w : ℕ) : ℤ) < (P.h : ℤ) := by
        refine ⟨?_, ?_, Int.natCast_nonneg _, ?_⟩
        · have := Int.natCast_nonneg (vIdx % P.w)
          linarith
        · exact_mod_cast hx'
        · exact_mod_cast hyh
      have hres := foldl_nbr_sets L st1 core1 hns hmem0 hb0 (by rw [hto]; exact hm)
      rw [hto] at hres
      exact hres
    · have hx'e : x' = vIdx % P.w - 1 := by omega
      subst hx'e
      subst hye
      have hx1 : 1 ≤ vIdx % P.w := by omega
      have hto : (((vIdx / P.w : ℕ) : ℤ) * (P.w : ℤ) + (((vIdx % P.w : ℕ) : ℤ) - 1)).toNat =
          (vIdx / P.w) * P.w + (vIdx % P.w - 1) := by
        rw [show ((vIdx / P.w : ℕ) : ℤ) * (P.w : ℤ) + (((vIdx % P.w : ℕ) : ℤ) - 1) =
          (((vIdx / P.w) * P.w + (vIdx % P.w - 1) : ℕ) : ℤ) by push_cast [hx1]; ring]
        exact Int.toNat_natCast _
      have hmem0 : (((vIdx % P.w : ℕ) : ℤ) - 1, ((vIdx / P.w : ℕ) : ℤ)) ∈ L := by
        rw [hL]
        exact List.mem_cons_of_mem _ (List.mem_cons_self _ _)
      have hb0 : (0 : ℤ) ≤ ((vIdx % P.w : ℕ) : ℤ) - 1 ∧
          ((vIdx % P.w : ℕ) : ℤ) - 1 < (P.w : ℤ) ∧
          (0 : ℤ) ≤ ((vIdx / P.w : ℕ) : ℤ) ∧ ((vIdx / P.w : ℕ) : ℤ) < (P.h : ℤ) := by
        refine ⟨sub_nonneg.mpr (by exact_mod_cast hx1), ?_, Int.natCast_nonneg _, ?_⟩
        · have hx2 : ((vIdx % P.w : ℕ) : ℤ) < (P.w : ℤ) := by exact_mod_cast hxw
          linarith
        · exact_mod_cast hyh
      have hres := foldl_nbr_sets L st1 core1 hns hmem0 hb0 (by rw [hto]; exact hm)
      rw [hto] at hres
      exact hres
    · subst hxe
      subst hye
      have hto : ((((vIdx / P.w : ℕ) : ℤ) + 1) * (P.w : ℤ) + ((vIdx % P.w : ℕ) : ℤ)).toNat =
          (vIdx / P.w + 1) * P.w + vIdx % P.w := by
        rw [show (((vIdx / P.w : ℕ) : ℤ) + 1) * (P.w : ℤ) + ((vIdx % P.w : ℕ) : ℤ) =
          (((vIdx / P.w + 1) * P.w + vIdx % P.w : ℕ) : ℤ) by push_cast; ring]
        exact Int.toNat_natCast _
      have hmem0 : (((vIdx % P.w : ℕ) : ℤ), ((vIdx / P.w : ℕ) : ℤ) + 1) ∈ L := by
        rw [hL]
        exact List.mem_cons_of_mem _ (List.mem_cons_of_mem _ (List.mem_cons_self _ _))
      have hb0 : (0 : ℤ) ≤ ((vIdx % P.w : ℕ) : ℤ) ∧
          ((vIdx % P.w : ℕ) : ℤ) < (P.w : ℤ) ∧
          (0 : ℤ) ≤ ((vIdx / P.w : ℕ) : ℤ) + 1 ∧
          ((vIdx / P.w : ℕ) : ℤ) + 1 < (P.h : ℤ) := by
        refine ⟨Int.natCast_nonneg _, by exact_mod_cast hxw, ?_, by exact_mod_cast hy'⟩
        have := Int.natCast_nonneg (vIdx / P.w)
        linarith
      have hres := foldl_nbr_sets L st1 core1 hns hmem0 hb0 (by rw [hto]; exact hm)
      rw [hto] at hres
      exact hres
    · have hy'e : y' = vIdx / P.w - 1 := by omega
      subst hy'e
      subst hxe
      have hy1 : 1 ≤ vIdx / P.w := by omega
      have hto : ((((vIdx / P.w : ℕ) : ℤ) - 1) * (P.w : ℤ) + ((vIdx % P.w : ℕ) : ℤ)).toNat =
          (vIdx / P.w - 1) * P.w + vIdx % P.w := by
        rw [show (((vIdx / P.w : ℕ) : ℤ) - 1) * (P.w : ℤ) + ((vIdx % P.w : ℕ) : ℤ) =
          (((vIdx / P.w - 1) * P.w + vIdx % P.w : ℕ) : ℤ) by push_cast [hy1]; ring]
        exact Int.toNat_natCast _
      have hmem0 : (((vIdx % P.w : ℕ) : ℤ), ((vIdx / P.w : ℕ) : ℤ) - 1) ∈ L := by
        rw [hL]
        exact List.mem_cons_of_mem _ (List.mem_cons_of_mem _
          (List.mem_cons_of_mem _ (List.mem_cons_self _ _)))
      have hb0 : (0 : ℤ) ≤ ((vIdx % P.w : ℕ) : ℤ) ∧
          ((vIdx % P.w : ℕ) : ℤ) < (P.w : ℤ) ∧
          (0 : ℤ) ≤ ((vIdx / P.w : ℕ) : ℤ) - 1 ∧
          ((vIdx / P.w : ℕ) : ℤ) - 1 < (P.h : ℤ) := by
        refine ⟨Int.natCast_nonneg _, by exact_mod_cast hxw,
          sub_nonneg.mpr (by exact_mod_cast hy1), ?_⟩
        have hy2 : ((vIdx / P.w : ℕ) : ℤ) < (P.h : ℤ) := by exact_mod_cast hyh
        linarith
      have hres := foldl_nbr_sets L st1 core1 hns hmem0 hb0 (by rw [hto]; exact hm)
      rw [hto] at hres
      exact hres
  have htakeD : (L.foldl (ffStepNbr P) st1).queue.take
      (L.foldl (ffStepNbr P) st1).head = st.queue.take st.head ++ [vIdx] := by
    rw [hheadD, hqD, List.take_append_of_le_length hq1, htake1]
  have hprocD : hprocFor P orig (L.foldl (ffStepNbr P) st1)
      ((L.foldl (ffStepNbr P) st1).queue.take (L.foldl (ffStepNbr P) st1).head) := by
    intro v hv x' y' hx' hy' hadj hm
    rw [htakeD] at hv
    rcases List.mem_append.mp hv with hv | hv
    · exact hprocSmall v hv x' y' hx' hy' hadj hm
    · rw [List.mem_singleton] at hv
      subst hv
      exact hprocV x' y' hx' hy' hadj hm
  refine ⟨?_, ?_, ?_, ?_⟩
  · rw [hunfold]
    exact ⟨coreD, hprocD⟩
  · rw [hunfold]
    exact hheadD
  · intro u hu
    rw [hunfold]
    exact hmonoD u hu
  · rw [hunfold]
    exact ⟨qD, hqD⟩

lemma queue_length_le {n : ℕ} {q : List ℕ} (hnd : q.Nodup)
    (hb : ∀ v ∈ q, v < n) : q.length ≤ n := by
  have h1 : q.toFinset.card = q.length := List.toFinset_card_of_nodup hnd
  have h2 : q.toFinset ⊆ Finset.range n := by
    intro v hv
    rw [List.mem_toFinset] at hv
    exact Finset.mem_range.mpr (hb v hv)
  calc q.length = q.toFinset.card := h1.symm
    _ ≤ (Finset.range n).card := Finset.card_le_card h2
    _ = n := Finset.card_range n

lemma ffLoop_done {P : FFParams} {fuel : ℕ} {st : FFState}
    (h : ¬st.head < st.queue.length) : ffLoop P fuel st = st := by
  cases fuel with
  | zero => rfl
  | succ fuel => rw [ffLoop, if_neg h]

/-- With the invariant in hand, `w*h - head` more fuel always finishes the
loop: each iteration advances `head` by one and the queue can never hold
more than `w*h` distinct in-range pixels. -/
lemma ffLoop_inv {P : FFParams} {orig : ℕ → Pixel} (fuel : ℕ) :
    ∀ st : FFState, FFInv P orig st → P.w * P.h ≤ fuel + st.head →
      FFInv P orig (ffLoop P fuel st) ∧
      (ffLoop P fuel st).queue.length ≤ (ffLoop P fuel st).head ∧
      (∀ u, st.visited u = true → (ffLoop P fuel st).visited u = true) := by
  induction fuel with
  | zero =>
      intro st hinv hfuel
      rw [ffLoop]
      refine ⟨hinv, ?_, fun u h => h⟩
      have hlen := queue_length_le hinv.hnd (fun v hv => (hinv.hmem v hv).1)
      omega
  | succ fuel ih =>
      intro st hinv hfuel
      rw [ffLoop]
      by_cases hq : st.head < st.queue.length
      · rw [if_pos hq]
        obtain ⟨hinv', hhead', hmono', _⟩ := ffStep_spec hinv hq
        have hres := ih (ffStep P st) hinv' (by omega)
        exact ⟨hres.1, hres.2.1, fun u hu => hres.2.2 u (hmono' u hu)⟩
      · rw [if_neg hq]
        refine ⟨hinv, by omega, fun u h => h⟩

lemma ffLoop_add (P : FFParams) (a b : ℕ) (st : FFState) :
    ffLoop P (a + b) st = ffLoop P b (ffLoop P a st) := by
  induction a generalizing st with
  | zero =>
      rw [Nat.zero_add]
      rfl
  | succ a iha =>
      rw [Nat.succ_add, ffLoop]
      by_cases hq : st.head < st.queue.length
      · rw [if_pos hq, iha,
          show ffLoop P (a + 1) st = ffLoop P a (ffStep P st) from by
            rw [ffLoop, if_pos hq]]
      · rw [if_neg hq, ffLoop_done hq, ffLoop_done hq]

/-- Full characterisation of a flood-fill run: the invariant holds, the
loop has drained its queue, a pixel is visited iff it is reachable from a
matching border seed through matching 4-neighbors, and the final buffer
rewrites exactly the visited pixels. -/
lemma ffRun_spec (P : FFParams) (orig : ℕ → Pixel) (hw : 0 < P.w)
    (hh : 0 < P.h) :
    FFInv P orig (ffRun P orig) ∧
    (ffRun P orig).queue.length ≤ (ffRun P orig).head ∧
    (∀ x y, x < P.w → y < P.h →
      ((ffRun P orig).visited (y * P.w + x) = true ↔
        Reach P.w P.h (matchOn P orig) x y)) ∧
    (∀ v, (ffRun P orig).data v =
      if (ffRun P orig).visited v = true then P.writeB (orig v) else orig v) := by
  obtain ⟨hseed, hhead0, hseedvis⟩ := seedBorders_spec P orig hw hh
  have hloop := ffLoop_inv (P.w * P.h)
    (seedBorders P ⟨orig, fun _ => false, [], 0⟩) hseed (by omega)
  have hrunEq : ffRun P orig =
      ffLoop P (P.w * P.h) (seedBorders P ⟨orig, fun _ => false, [], 0⟩) := rfl
  rw [hrunEq]
  obtain ⟨hinvF, hdoneF, hmonoF⟩ := hloop
  set stF := ffLoop P (P.w * P.h) (seedBorders P ⟨orig, fun _ => false, [], 0⟩)
    with hstF
  have htk : stF.queue.take stF.head = stF.queue := List.take_of_length_le hdoneF
  have hcomplete : ∀ x y, Reach P.w P.h (matchOn P orig) x y →
      stF.visited (y * P.w + x) = true := by
    intro x y hr
    induction hr with
    | seed x y hx hy hb hm => exact hmonoF _ (hseedvis x y hx hy hb hm)
    | step x y x' y' hr hx' hy' hadj hm ih =>
        obtain ⟨hx, hy⟩ := hr.bounds
        have hvq := (hinvF.hvq (y * P.w + x)).mp ih
        have hintake : (y * P.w + x) ∈ stF.queue.take stF.head := by
          rw [htk]
          exact hvq
        have hadj' : AdjXY ((y * P.w + x) % P.w) ((y * P.w + x) / P.w) x' y' := by
          rw [idx_mod y hx, idx_div y hx]
          exact hadj
        exact hinvF.hproc (y * P.w + x) hintake x' y' hx' hy' hadj' hm
  refine ⟨hinvF, hdoneF, ?_, ?_⟩
  · intro x y hx hy
    constructor
    · intro hvis
      have hvq := (hinvF.hvq (y * P.w + x)).mp hvis
      have := (hinvF.hmem (y * P.w + x) hvq).2
      rwa [idx_mod y hx, idx_div y hx] at this
    · exact hcomplete x y
  · intro v
    rw [hinvF.hdata v, htk]
    by_cases hv : v ∈ stF.queue
    · rw [if_pos hv, if_pos ((hinvF.hvq v).mpr hv)]
    · rw [if_neg hv, if_neg (fun ht => hv ((hinvF.hvq v).mp ht))]

/-! ## Claim C10 -/

/-- **C10.**  The flood-fill loop terminates for every bitmap with
`w > 0` and `h > 0`, for any match predicate and pixel rewrite (hence in
particular for `applyFloodFill` and for the preview player's
`processTransparency` flood branch, which are the two instantiations of
`ffRun`): each pixel is enqueued at most once (the queue stays duplicate
free), every enqueued index is within the `w*h` bitmap bounds (so all
pixel reads and writes of the loop stay in bounds), the queue never grows
past `w*h` entries, the `w*h` fuel drains the whole queue, and any extra
fuel beyond `w*h` changes nothing — the loop performs at most `w*h`
iterations. -/
theorem C10_flood_fill_terminates (P : FFParams) (orig : ℕ → Pixel)
    (hw : 0 < P.w) (hh : 0 < P.h) :
    (ffRun P orig).queue.Nodup ∧
    (∀ v ∈ (ffRun P orig).queue, v < P.w * P.h) ∧
    (ffRun P orig).queue.length ≤ P.w * P.h ∧
    (ffRun P orig).queue.length ≤ (ffRun P orig).head ∧
    (∀ extra, ffLoop P (P.w * P.h + extra)
      (seedBorders P ⟨orig, fun _ => false, [], 0⟩) = ffRun P orig) := by
  obtain ⟨hinv, hdone, _, _⟩ := ffRun_spec P orig hw hh
  refine ⟨hinv.hnd, fun v hv => (hinv.hmem v hv).1,
    queue_length_le hinv.hnd (fun v hv => (hinv.hmem v hv).1), hdone, ?_⟩
  intro extra
  rw [ffLoop_add]
  exact ffLoop_done (Nat.not_lt.mpr hdone)

/-- Witness for C10: a 2×2 all-white bitmap keyed against black with zero
tolerance, with the export pipeline's match and rewrite. -/
theorem C10_flood_fill_terminates_witness :
    ((0 : ℕ) < 2 ∧ (0 : ℕ) < 2) ∧
    ((ffRun ⟨2, 2, ffMatches ⟨0, 0, 0⟩ 0, fun _ => ⟨0, 255, 0, 255⟩⟩
        (fun _ => ⟨255, 255, 255, 255⟩)).queue.Nodup ∧
      (∀ v ∈ (ffRun ⟨2, 2, ffMatches ⟨0, 0, 0⟩ 0, fun _ => ⟨0, 255, 0, 255⟩⟩
        (fun _ => ⟨255, 255, 255, 255⟩)).queue, v < 2 * 2) ∧
      (ffRun ⟨2, 2, ffMatches ⟨0, 0, 0⟩ 0, fun _ => ⟨0, 255, 0, 255⟩⟩
        (fun _ => ⟨255, 255, 255, 255⟩)).queue.length ≤ 2 * 2 ∧
      (ffRun ⟨2, 2, ffMatches ⟨0, 0, 0⟩ 0, fun _ => ⟨0, 255, 0, 255⟩⟩
        (fun _ => ⟨255, 255, 255, 255⟩)).queue.length ≤
        (ffRun ⟨2, 2, ffMatches ⟨0, 0, 0⟩ 0, fun _ => ⟨0, 255, 0, 255⟩⟩
          (fun _ => ⟨255, 255, 255, 255⟩)).head ∧
      (∀ extra, ffLoop ⟨2, 2, ffMatches ⟨0, 0, 0⟩ 0, fun _ => ⟨0, 255, 0, 255⟩⟩
          (2 * 2 + extra)
          (seedBorders ⟨2, 2, ffMatches ⟨0, 0, 0⟩ 0, fun _ => ⟨0, 255, 0, 255⟩⟩
            ⟨fun _ => ⟨255, 255, 255, 255⟩, fun _ => false, [], 0⟩) =
        ffRun ⟨2, 2, ffMatches ⟨0, 0, 0⟩ 0, fun _ => ⟨0, 255, 0, 255⟩⟩
          (fun _ => ⟨255, 255, 255, 255⟩))) :=
  ⟨⟨by decide, by decide⟩,
    C10_flood_fill_terminates ⟨2, 2, ffMatches ⟨0, 0, 0⟩ 0, fun _ => ⟨0, 255, 0, 255⟩⟩
      (fun _ => ⟨255, 255, 255, 255⟩) (by decide) (by decide)⟩

/-! ## Claim C3 -/

lemma AdjXY_symm {x y x' y' : ℕ} (h : AdjXY x y x' y') : AdjXY x' y' x y := by
  unfold AdjXY at h ⊢
  omega

lemma globalKeyPixel_of_matches (targetRGB keyColor : RGB) (thresholdSq : ℚ)
    (p : Pixel) (hm : ffMatches targetRGB thresholdSq p = true) :
    globalKeyPixel targetRGB keyColor thresholdSq p =
      ⟨keyColor.r, keyColor.g, keyColor.b, 255⟩ := by
  unfold ffMatches at hm
  unfold globalKeyPixel
  by_cases ha : p.a = 0
  · rw [if_pos ha]
  · rw [if_neg ha] at hm
    rw [if_neg ha, if_pos (of_decide_eq_true hm)]

/-- **C3.**  For every bitmap containing a region `R` of pixels matching
the target color within tolerance that is fully enclosed by non-matching
pixels and touches no border pixel, the flood-fill keying mode leaves
every pixel of `R` unchanged, while the global keying mode rewrites every
pixel of `R` to the opaque key color.  More generally the flood fill
converts (to the opaque key color) exactly the pixels reachable from a
matching border pixel through a 4-neighbor (N/S/E/W) chain of matching
pixels, and leaves every other pixel unchanged. -/
theorem C3_flood_fill_enclosed_region (w h : ℕ) (orig : ℕ → Pixel)
    (targetRGB keyColor : RGB) (thresholdSq : ℚ) (R : Finset (ℕ × ℕ))
    (hw : 0 < w) (hh : 0 < h)
    (hR : ∀ p ∈ R, p.1 < w ∧ p.2 < h ∧
      ffMatches targetRGB thresholdSq (orig (p.2 * w + p.1)) = true)
    (hRborder : ∀ p ∈ R, ¬IsBorder w h p.1 p.2)
    (hRclosed : ∀ p ∈ R, ∀ q ∈ Finset.range w ×ˢ Finset.range h,
      AdjXY p.1 p.2 q.1 q.2 → q ∉ R →
      ffMatches targetRGB thresholdSq (orig (q.2 * w + q.1)) = false) :
    (∀ p ∈ R,
      applyFloodFill orig w h targetRGB keyColor thresholdSq (p.2 * w + p.1) =
        orig (p.2 * w + p.1) ∧
      applyGlobalKey orig targetRGB keyColor thresholdSq (p.2 * w + p.1) =
        ⟨keyColor.r, keyColor.g, keyColor.b, 255⟩) ∧
    (∀ x y, x < w → y < h →
      (Reach w h (fun v => ffMatches targetRGB thresholdSq (orig v) = true) x y →
        applyFloodFill orig w h targetRGB keyColor thresholdSq (y * w + x) =
          ⟨keyColor.r, keyColor.g, keyColor.b, 255⟩) ∧
      (¬Reach w h (fun v => ffMatches targetRGB thresholdSq (orig v) = true) x y →
        applyFloodFill orig w h targetRGB keyColor thresholdSq (y * w + x) =
          orig (y * w + x))) := by
  obtain ⟨_, _, hiff, hdata⟩ := ffRun_spec
    ⟨w, h, ffMatches targetRGB thresholdSq,
      fun _ => ⟨keyColor.r, keyColor.g, keyColor.b, 255⟩⟩ orig hw hh
  have hgen : ∀ x y, x < w → y < h →
      (Reach w h (fun v => ffMatches targetRGB thresholdSq (orig v) = true) x y →
        applyFloodFill orig w h targetRGB keyColor thresholdSq (y * w + x) =
          ⟨keyColor.r, keyColor.g, keyColor.b, 255⟩) ∧
      (¬Reach w h (fun v => ffMatches targetRGB thresholdSq (orig v) = true) x y →
        applyFloodFill orig w h targetRGB keyColor thresholdSq (y * w + x) =
          orig (y * w + x)) := by
    intro x y hx hy
    constructor
    · intro hr
      have hvis := (hiff x y hx hy).mpr hr
      have := hdata (y * w + x)
      rw [if_pos hvis] at this
      exact this
    · intro hnr
      have hnvis : ¬(ffRun ⟨w, h, ffMatches targetRGB thresholdSq,
          fun _ => ⟨keyColor.r, keyColor.g, keyColor.b, 255⟩⟩ orig).visited
          (y * w + x) = true :=
        fun hv => hnr ((hiff x y hx hy).mp hv)
      have := hdata (y * w + x)
      rw [if_neg hnvis] at this
      exact this
  have hnotR : ∀ x y,
      Reach w h (fun v => ffMatches targetRGB thresholdSq (orig v) = true) x y →
      (x, y) ∉ R := by
    intro x y hr
    induction hr with
    | seed x y hx hy hb hm => exact fun hmem => (hRborder (x, y) hmem) hb
    | step x y x' y' hr hx' hy' hadj hm ih =>
        intro hmem'
        obtain ⟨hx, hy⟩ := hr.bounds
        have hq : ((x, y) : ℕ × ℕ) ∈ Finset.range w ×ˢ Finset.range h := by
          rw [Finset.mem_product]
          exact ⟨Finset.mem_range.mpr hx, Finset.mem_range.mpr hy⟩
        have hfalse := hRclosed (x', y') hmem' (x, y) hq (AdjXY_symm hadj) ih
        have htrue := hr.matches
        rw [htrue] at hfalse
        exact Bool.noConfusion hfalse
  refine ⟨?_, hgen⟩
  intro p hp
  obtain ⟨hpx, hpy, hpm⟩ := hR p hp
  have hnr : ¬Reach w h (fun v => ffMatches targetRGB thresholdSq (orig v) = true)
      p.1 p.2 := by
    intro hr
    exact hnotR p.1 p.2 hr (by rwa [Prod.mk.eta])
  refine ⟨(hgen p.1 p.2 hpx hpy).2 hnr, ?_⟩
  exact globalKeyPixel_of_matches targetRGB keyColor thresholdSq _ hpm

/-- A 3×3 bitmap whose centre pixel is black and whose eight border pixels
are white. -/
def orig3 : ℕ → Pixel :=
  fun v => if v = 4 then ⟨0, 0, 0, 255⟩ else ⟨255, 255, 255, 255⟩

/-- Witness for C3: keying black at zero tolerance on `orig3`, whose
centre pixel `{(1,1)}` is an enclosed matching region: the flood fill
leaves it unchanged while the global mode keys it. -/
theorem C3_flood_fill_enclosed_region_witness :
    ((0 : ℕ) < 3 ∧ (0 : ℕ) < 3 ∧
      (∀ p ∈ ({(1, 1)} : Finset (ℕ × ℕ)), p.1 < 3 ∧ p.2 < 3 ∧
        ffMatches ⟨0, 0, 0⟩ 0 (orig3 (p.2 * 3 + p.1)) = true) ∧
      (∀ p ∈ ({(1, 1)} : Finset (ℕ × ℕ)), ¬IsBorder 3 3 p.1 p.2) ∧
      (∀ p ∈ ({(1, 1)} : Finset (ℕ × ℕ)),
        ∀ q ∈ Finset.range 3 ×ˢ Finset.range 3, AdjXY p.1 p.2 q.1 q.2 →
        q ∉ ({(1, 1)} : Finset (ℕ × ℕ)) →
        ffMatches ⟨0, 0, 0⟩ 0 (orig3 (q.2 * 3 + q.1)) = false)) ∧
    (∀ p ∈ ({(1, 1)} : Finset (ℕ × ℕ)),
      applyFloodFill orig3 3 3 ⟨0, 0, 0⟩ ⟨0, 255, 0⟩ 0 (p.2 * 3 + p.1) =
        orig3 (p.2 * 3 + p.1) ∧
      applyGlobalKey orig3 ⟨0, 0, 0⟩ ⟨0, 255, 0⟩ 0 (p.2 * 3 + p.1) =
        ⟨0, 255, 0, 255⟩) :=
  ⟨⟨by decide, by decide, by decide, by decide, by decide⟩,
    (C3_flood_fill_enclosed_region 3 3 orig3 ⟨0, 0, 0⟩ ⟨0, 255, 0⟩ 0
      {(1, 1)} (by decide) (by decide) (by decide) (by decide) (by decide)).1⟩

end SpriteMotion
